import Mathlib

/-!
Verification of the TidalBot execution core against its specification.

The development shallowly embeds the Python sources:
  * `src/engine/backtester.py`  - event queue (CPython `heapq` algorithm),
    event ordering, order handler, performance computation;
  * `src/core/order_manager.py` - order lifecycle manager;
  * `src/core/strategy_executor.py` - signal orchestrator;
  * `src/api/exchange_base.py`  - quantity normalization helpers.

Python floats are modelled as rationals, `datetime` values as rational
seconds, dictionaries as association lists that keep insertion order, and
raised exceptions as `Except` errors.
-/

namespace TidalBot

/-! ## Event ordering key (backtester.py, EVENT_TYPES and Event.__lt__)

`Event.__lt__` compares the tuple `(timestamp, EVENT_TYPES[type])`.
`EvKey` is that tuple; its linear order is the Python tuple order:
first components compared first, ties decided by the second component. -/

/-- Key tuple `(timestamp, type_priority)` used by `Event.__lt__`. -/
structure EvKey where
  ts : ℚ
  prio : ℕ
deriving DecidableEq

/-- Python strict tuple comparison: first components first, ties on the second. -/
def EvKey.ltP (a b : EvKey) : Prop := a.ts < b.ts ∨ (a.ts = b.ts ∧ a.prio < b.prio)

/-- Non-strict counterpart of the tuple comparison. -/
def EvKey.leP (a b : EvKey) : Prop := a.ts < b.ts ∨ (a.ts = b.ts ∧ a.prio ≤ b.prio)

instance : DecidableRel EvKey.ltP := fun a b =>
  inferInstanceAs (Decidable (a.ts < b.ts ∨ (a.ts = b.ts ∧ a.prio < b.prio)))

instance : DecidableRel EvKey.leP := fun a b =>
  inferInstanceAs (Decidable (a.ts < b.ts ∨ (a.ts = b.ts ∧ a.prio ≤ b.prio)))

theorem EvKey.leP_refl (a : EvKey) : EvKey.leP a a := Or.inr ⟨rfl, le_refl _⟩

theorem EvKey.leP_trans {a b c : EvKey} (h1 : EvKey.leP a b) (h2 : EvKey.leP b c) :
    EvKey.leP a c := by
  rcases h1 with h1 | ⟨e1, h1⟩ <;> rcases h2 with h2 | ⟨e2, h2⟩
  · exact Or.inl (lt_trans h1 h2)
  · exact Or.inl (lt_of_lt_of_le h1 (le_of_eq e2))
  · exact Or.inl (lt_of_le_of_lt (le_of_eq e1) h2)
  · exact Or.inr ⟨e1.trans e2, le_trans h1 h2⟩

theorem EvKey.leP_antisymm {a b : EvKey} (h1 : EvKey.leP a b) (h2 : EvKey.leP b a) :
    a = b := by
  rcases h1 with h1 | ⟨e1, h1⟩ <;> rcases h2 with h2 | ⟨e2, h2⟩
  · exact absurd (lt_trans h1 h2) (lt_irrefl _)
  · exact absurd h1 (by rw [e2]; exact lt_irrefl _)
  · exact absurd h2 (by rw [e1]; exact lt_irrefl _)
  · cases a; cases b
    simp only at e1 h1 h2
    simp only [EvKey.mk.injEq]
    exact ⟨e1, le_antisymm h1 h2⟩

theorem EvKey.leP_total (a b : EvKey) : EvKey.leP a b ∨ EvKey.leP b a := by
  rcases lt_trichotomy a.ts b.ts with h | h | h
  · exact Or.inl (Or.inl h)
  · rcases le_total a.prio b.prio with h2 | h2
    · exact Or.inl (Or.inr ⟨h, h2⟩)
    · exact Or.inr (Or.inr ⟨h.symm, h2⟩)
  · exact Or.inr (Or.inl h)

theorem EvKey.ltP_iff {a b : EvKey} :
    EvKey.ltP a b ↔ EvKey.leP a b ∧ ¬ EvKey.leP b a := by
  constructor
  · rintro (h | ⟨e, h⟩)
    · refine ⟨Or.inl h, ?_⟩
      rintro (h2 | ⟨e2, h2⟩)
      · exact absurd (lt_trans h h2) (lt_irrefl _)
      · exact absurd h (by rw [e2]; exact lt_irrefl _)
    · refine ⟨Or.inr ⟨e, le_of_lt h⟩, ?_⟩
      rintro (h2 | ⟨e2, h2⟩)
      · exact absurd h2 (by rw [e]; exact lt_irrefl _)
      · exact absurd h (not_lt_of_le h2)
  · rintro ⟨h1 | ⟨e1, h1⟩, h2⟩
    · exact Or.inl h1
    · refine Or.inr ⟨e1, ?_⟩
      rcases lt_or_ge a.prio b.prio with h3 | h3
      · exact h3
      · exact absurd (Or.inr ⟨e1.symm, h3⟩) h2

/-- Python tuple comparison makes the event key a linear order. -/
instance : LinearOrder EvKey where
  lt := EvKey.ltP
  le := EvKey.leP
  le_refl := EvKey.leP_refl
  le_trans _ _ _ := EvKey.leP_trans
  le_antisymm _ _ := EvKey.leP_antisymm
  le_total := EvKey.leP_total
  lt_iff_le_not_le _ _ := EvKey.ltP_iff
  decidableLE := inferInstanceAs (DecidableRel EvKey.leP)
  decidableLT := inferInstanceAs (DecidableRel EvKey.ltP)

/-! ## CPython heapq (stdlib module used by Backtester.add_event / Backtester.run)

Transcribed from CPython Lib/heapq.py: `heappush`, `heappop`, `_siftdown`,
`_siftup`.  The list cell reads and writes of the Python code become
`List.getD` / `List.set`; `(pos - 1) >> 1` is `(pos - 1) / 2` on naturals.
Comparisons `a < b` call `Event.__lt__`, i.e. compare `key a < key b`. -/

section Heapq

variable {E : Type} [Inhabited E] {K : Type} [LinearOrder K]

/-- Loop of CPython `_siftdown(heap, startpos, pos)`: `newitem = heap[pos]`
was read by the caller; parents greater than `newitem` are moved down and
`newitem` is finally stored at the stopping position. -/
def siftdownAux (key : E → K) (startpos : ℕ) (newitem : E) (pos : ℕ) (heap : List E) : List E :=
  if startpos < pos then
    let parentpos := (pos - 1) / 2
    let parent := heap.getD parentpos default
    if key newitem < key parent then
      siftdownAux key startpos newitem parentpos (heap.set pos parent)
    else
      heap.set pos newitem
  else
    heap.set pos newitem
termination_by pos
decreasing_by simp_wf; omega

/-- CPython `_siftdown(heap, startpos, pos)`. -/
def siftdown (key : E → K) (heap : List E) (startpos pos : ℕ) : List E :=
  siftdownAux key startpos (heap.getD pos default) pos heap

/-- Loop of CPython `_siftup(heap, pos)`: bubble the smaller child up until a
leaf is reached, then place `newitem` there and call `_siftdown`. -/
def siftupAux (key : E → K) (endpos startpos : ℕ) (newitem : E) (pos : ℕ) (heap : List E) : List E :=
  if 2 * pos + 1 < endpos then
    let childpos := 2 * pos + 1
    let rightpos := childpos + 1
    let c :=
      if rightpos < endpos ∧ ¬ key (heap.getD childpos default) < key (heap.getD rightpos default)
      then rightpos else childpos
    siftupAux key endpos startpos newitem c (heap.set pos (heap.getD c default))
  else
    siftdownAux key startpos newitem pos heap
termination_by endpos - pos
decreasing_by simp_wf; split <;> omega

/-- CPython `_siftup(heap, pos)` with `endpos = len(heap)`, `startpos = pos`,
`newitem = heap[pos]`. -/
def siftup (key : E → K) (heap : List E) (pos : ℕ) : List E :=
  siftupAux key heap.length pos (heap.getD pos default) pos heap

/-- CPython `heappush(heap, item)`: append then `_siftdown(heap, 0, len-1)`. -/
def heappush (key : E → K) (heap : List E) (item : E) : List E :=
  siftdown key (heap ++ [item]) 0 heap.length

/-- CPython `heappop(heap)`: pop the last element; if the heap is still
nonempty, move it to the root and `_siftup(heap, 0)`.  An empty heap raises
`IndexError`, modelled as `none`. -/
def heappop (key : E → K) (heap : List E) : Option (E × List E) :=
  match heap.getLast? with
  | none => none
  | some lastelt =>
    let rest := heap.dropLast
    if rest.isEmpty then some (lastelt, [])
    else some (rest.getD 0 default, siftup key (rest.set 0 lastelt) 0)

/-- The sift loops only overwrite list cells, so length is preserved. -/
theorem length_siftdownAux (key : E → K) (startpos : ℕ) (newitem : E) (pos : ℕ)
    (heap : List E) : (siftdownAux key startpos newitem pos heap).length = heap.length := by
  induction pos using Nat.strong_induction_on generalizing heap with
  | _ pos ih =>
    rw [siftdownAux]
    simp only []
    split
    · split
      · rw [ih _ (by omega)]
        exact List.length_set ..
      · exact List.length_set ..
    · exact List.length_set ..

theorem length_siftupAux (key : E → K) (endpos startpos : ℕ) (newitem : E) (pos : ℕ)
    (heap : List E) : (siftupAux key endpos startpos newitem pos heap).length = heap.length := by
  suffices H : ∀ m pos (heap : List E), endpos - pos ≤ m →
      (siftupAux key endpos startpos newitem pos heap).length = heap.length from
    H (endpos - pos) pos heap (le_refl _)
  intro m
  induction m with
  | zero =>
    intro pos heap hm
    rw [siftupAux]
    simp only []
    rw [if_neg (by omega)]
    exact length_siftdownAux ..
  | succ m ih =>
    intro pos heap hm
    rw [siftupAux]
    simp only []
    split
    · split
      · rw [ih _ _ (by omega)]
        exact List.length_set ..
      · rw [ih _ _ (by omega)]
        exact List.length_set ..
    · exact length_siftdownAux ..

theorem length_heappush (key : E → K) (heap : List E) (item : E) :
    (heappush key heap item).length = heap.length + 1 := by
  unfold heappush siftdown
  rw [length_siftdownAux, List.length_append, List.length_cons, List.length_nil]

theorem heappop_length (key : E → K) (heap : List E) (e : E) (h2 : List E)
    (h : heappop key heap = some (e, h2)) :
    heap ≠ [] ∧ h2.length = heap.length - 1 := by
  unfold heappop at h
  cases hl : heap.getLast? with
  | none =>
    rw [hl] at h
    exact absurd h (by simp)
  | some lastelt =>
    rw [hl] at h
    have hne : heap ≠ [] := by
      intro hnil
      rw [hnil] at hl
      exact absurd hl (by simp)
    refine ⟨hne, ?_⟩
    by_cases hrest : heap.dropLast.isEmpty
    · simp only [hrest, if_true] at h
      have hd : heap.dropLast.length = heap.length - 1 := List.length_dropLast heap
      have hz : heap.dropLast.length = 0 := by
        simpa using congrArg List.length (List.isEmpty_iff.mp hrest)
      have hp : 0 < heap.length := List.length_pos.mpr hne
      cases h
      simp only [List.length_nil]
      omega
    · simp only [hrest, if_false] at h
      cases h
      rw [siftup, length_siftupAux, List.length_set, List.length_dropLast]

/-- Dispatch loop of `Backtester.run`: pop events until the queue is empty. -/
def drain (key : E → K) (heap : List E) : List E :=
  match h : heappop key heap with
  | none => []
  | some (e, h2) => e :: drain key h2
termination_by heap.length
decreasing_by
  have hl := heappop_length key heap e h2 h
  have hpos : 0 < heap.length := List.length_pos.mpr hl.1
  omega

/-! ### List cell access lemmas -/

theorem getD_set_self {α : Type} (l : List α) (i : ℕ) (v d : α) (h : i < l.length) :
    (l.set i v).getD i d = v := by
  induction l generalizing i with
  | nil => simp at h
  | cons a t ih =>
    cases i with
    | zero => rfl
    | succ i => exact ih i (by simpa using h)

theorem getD_set_ne {α : Type} (l : List α) (i j : ℕ) (v d : α) (h : i ≠ j) :
    (l.set i v).getD j d = l.getD j d := by
  induction l generalizing i j with
  | nil => simp [List.set]
  | cons a t ih =>
    cases i with
    | zero =>
      cases j with
      | zero => exact absurd rfl h
      | succ j => rfl
    | succ i =>
      cases j with
      | zero => rfl
      | succ j => exact ih i j (by omega)

theorem getD_append_left {α : Type} (l l2 : List α) (i : ℕ) (d : α) (h : i < l.length) :
    (l ++ l2).getD i d = l.getD i d := by
  induction l generalizing i with
  | nil => simp at h
  | cons a t ih =>
    cases i with
    | zero => rfl
    | succ i => exact ih i (by simpa using h)

theorem getD_append_len {α : Type} (l : List α) (x d : α) :
    (l ++ [x]).getD l.length d = x := by
  induction l with
  | nil => rfl
  | cons a t ih => exact ih

theorem getD_dropLast {α : Type} (l : List α) (i : ℕ) (d : α) (h : i < l.length - 1) :
    l.dropLast.getD i d = l.getD i d := by
  induction l generalizing i with
  | nil => simp at h
  | cons a t ih =>
    cases t with
    | nil => simp at h
    | cons b u =>
      cases i with
      | zero => rfl
      | succ i =>
        simp only [List.dropLast_cons₂, List.getD_cons_succ]
        exact ih i (by simp at h ⊢; omega)

theorem multiset_set {α : Type} (l : List α) (i : ℕ) (v d : α) (h : i < l.length) :
    ((l.set i v : List α) : Multiset α) + {l.getD i d} = (l : Multiset α) + {v} := by
  induction l generalizing i with
  | nil => simp at h
  | cons a t ih =>
    cases i with
    | zero =>
      show (v ::ₘ (t : Multiset α)) + {a} = (a ::ₘ (t : Multiset α)) + {v}
      rw [← Multiset.singleton_add v, ← Multiset.singleton_add a]
      abel
    | succ i =>
      show (a ::ₘ ((t.set i v : List α) : Multiset α)) + {t.getD i d}
          = (a ::ₘ (t : Multiset α)) + {v}
      rw [Multiset.cons_add, Multiset.cons_add, ih i (by simpa using h)]

/-! ### The binary-heap invariant and the hole invariants of the sift loops

`HeapInv` is the invariant CPython's heapq maintains: every element is not
smaller than its parent at `(j - 1) / 2`.  The sift loops carry an element
`newitem` for a "hole" position; `HoleEdges` says all parent/child edges away
from the hole are ordered, `HoleAbove` that `newitem` fits above the hole's
children, `HoleGrand` that the hole's parent fits above the hole's children. -/

section HeapInvariant

variable {E : Type} [Inhabited E] {K : Type} [LinearOrder K]

/-- Heap order: every non-root element is at least its parent. -/
def HeapInv (key : E → K) (heap : List E) : Prop :=
  ∀ j, 0 < j → j < heap.length →
    key (heap.getD ((j - 1) / 2) default) ≤ key (heap.getD j default)

/-- All parent/child edges not touching the hole `pos` are ordered. -/
def HoleEdges (key : E → K) (heap : List E) (pos : ℕ) : Prop :=
  ∀ j, 0 < j → j < heap.length → j ≠ pos → (j - 1) / 2 ≠ pos →
    key (heap.getD ((j - 1) / 2) default) ≤ key (heap.getD j default)

/-- The carried element fits above every child of the hole. -/
def HoleAbove (key : E → K) (heap : List E) (pos : ℕ) (newitem : E) : Prop :=
  ∀ j, 0 < j → j < heap.length → (j - 1) / 2 = pos →
    key newitem ≤ key (heap.getD j default)

/-- The hole's parent fits above every child of the hole. -/
def HoleGrand (key : E → K) (heap : List E) (pos : ℕ) : Prop :=
  ∀ j, 0 < j → j < heap.length → (j - 1) / 2 = pos → 0 < pos →
    key (heap.getD ((pos - 1) / 2) default) ≤ key (heap.getD j default)

/-- CPython `_siftdown` restores the heap invariant from the hole invariants. -/
theorem siftdownAux_heapInv (key : E → K) (newitem : E) (pos : ℕ) (heap : List E)
    (hpos : pos < heap.length) (ha : HoleEdges key heap pos)
    (hb : HoleAbove key heap pos newitem) (hc : HoleGrand key heap pos) :
    HeapInv key (siftdownAux key 0 newitem pos heap) := by
  induction pos using Nat.strong_induction_on generalizing heap with
  | _ pos ih =>
    rw [siftdownAux]
    simp only []
    by_cases h0 : 0 < pos
    · rw [if_pos h0]
      by_cases hlt : key newitem < key (heap.getD ((pos - 1) / 2) default)
      · rw [if_pos hlt]
        have hpp : (pos - 1) / 2 < pos := by omega
        apply ih _ hpp
        · rw [List.length_set]; omega
        · -- HoleEdges for the moved hole
          intro j hj0 hjlen hjne hjpar
          rw [List.length_set] at hjlen
          have hjpos : j ≠ pos := by
            intro hj; rw [hj] at hjpar; exact hjpar rfl
          by_cases hjp : (j - 1) / 2 = pos
          · rw [hjp, getD_set_self _ _ _ _ hpos, getD_set_ne _ _ _ _ _ (by omega)]
            exact hc j hj0 hjlen hjp h0
          · rw [getD_set_ne _ _ _ _ _ (by omega), getD_set_ne _ _ _ _ _ (by omega)]
            exact ha j hj0 hjlen hjpos hjp
        · -- HoleAbove for the moved hole
          intro j hj0 hjlen hjpar
          rw [List.length_set] at hjlen
          by_cases hjpos : j = pos
          · rw [hjpos, getD_set_self _ _ _ _ hpos]
            exact le_of_lt hlt
          · rw [getD_set_ne _ _ _ _ _ (by omega)]
            refine le_trans (le_of_lt hlt) ?_
            have := ha j hj0 hjlen hjpos (by omega)
            rw [hjpar] at this
            exact this
        · -- HoleGrand for the moved hole
          intro j hj0 hjlen hjpar hpp0
          rw [List.length_set] at hjlen
          have hgp : ((pos - 1) / 2 - 1) / 2 ≠ pos := by omega
          rw [getD_set_ne _ _ _ _ _ (by omega)]
          have hedge : key (heap.getD (((pos - 1) / 2 - 1) / 2) default)
              ≤ key (heap.getD ((pos - 1) / 2) default) :=
            ha ((pos - 1) / 2) hpp0 (by omega) (by omega) hgp
          by_cases hjpos : j = pos
          · rw [hjpos, getD_set_self _ _ _ _ hpos]
            exact hedge
          · rw [getD_set_ne _ _ _ _ _ (by omega)]
            refine le_trans hedge ?_
            have := ha j hj0 hjlen hjpos (by omega)
            rw [hjpar] at this
            exact this
      · rw [if_neg hlt]
        intro j hj0 hjlen
        rw [List.length_set] at hjlen
        by_cases hjpos : j = pos
        · subst hjpos
          rw [getD_set_self _ _ _ _ hpos, getD_set_ne _ _ _ _ _ (by omega)]
          exact le_of_not_lt hlt
        · by_cases hjp : (j - 1) / 2 = pos
          · rw [hjp, getD_set_self _ _ _ _ hpos, getD_set_ne _ _ _ _ _ (by omega)]
            exact hb j hj0 hjlen hjp
          · rw [getD_set_ne _ _ _ _ _ (by omega), getD_set_ne _ _ _ _ _ (by omega)]
            exact ha j hj0 hjlen hjpos hjp
    · rw [if_neg h0]
      have hpos0 : pos = 0 := by omega
      subst hpos0
      intro j hj0 hjlen
      rw [List.length_set] at hjlen
      by_cases hjp : (j - 1) / 2 = 0
      · rw [hjp, getD_set_self _ _ _ _ hpos, getD_set_ne _ _ _ _ _ (by omega)]
        exact hb j hj0 hjlen hjp
      · rw [getD_set_ne _ _ _ _ _ (by omega), getD_set_ne _ _ _ _ _ (by omega)]
        exact ha j hj0 hjlen (by omega) hjp

/-- CPython `_siftdown` replaces the hole's content by the carried element,
leaving all other cells as a permutation. -/
theorem siftdownAux_multiset (key : E → K) (startpos : ℕ) (newitem : E) (pos : ℕ)
    (heap : List E) (hpos : pos < heap.length) :
    ((siftdownAux key startpos newitem pos heap : List E) : Multiset E)
        + {heap.getD pos default}
      = (heap : Multiset E) + {newitem} := by
  induction pos using Nat.strong_induction_on generalizing heap with
  | _ pos ih =>
    rw [siftdownAux]
    simp only []
    by_cases h0 : startpos < pos
    · rw [if_pos h0]
      by_cases hlt : key newitem < key (heap.getD ((pos - 1) / 2) default)
      · rw [if_pos hlt]
        have hpp : (pos - 1) / 2 < pos := by omega
        have hres := ih _ hpp (heap.set pos (heap.getD ((pos - 1) / 2) default))
          (by rw [List.length_set]; omega)
        rw [getD_set_ne _ _ _ _ _ (by omega)] at hres
        have hset := multiset_set heap pos (heap.getD ((pos - 1) / 2) default) default hpos
        apply add_right_cancel (b := ({heap.getD ((pos - 1) / 2) default} : Multiset E))
        calc ((siftdownAux key startpos newitem ((pos - 1) / 2)
                (heap.set pos (heap.getD ((pos - 1) / 2) default)) : List E) : Multiset E)
              + {heap.getD pos default} + {heap.getD ((pos - 1) / 2) default}
            = ((siftdownAux key startpos newitem ((pos - 1) / 2)
                (heap.set pos (heap.getD ((pos - 1) / 2) default)) : List E) : Multiset E)
              + {heap.getD ((pos - 1) / 2) default} + {heap.getD pos default} := by
              rw [add_right_comm]
          _ = ((heap.set pos (heap.getD ((pos - 1) / 2) default) : List E) : Multiset E)
              + {newitem} + {heap.getD pos default} := by rw [hres]
          _ = ((heap.set pos (heap.getD ((pos - 1) / 2) default) : List E) : Multiset E)
              + {heap.getD pos default} + {newitem} := by rw [add_right_comm]
          _ = (heap : Multiset E) + {heap.getD ((pos - 1) / 2) default} + {newitem} := by
              rw [hset]
          _ = (heap : Multiset E) + {newitem} + {heap.getD ((pos - 1) / 2) default} := by
              rw [add_right_comm]
      · rw [if_neg hlt]
        exact multiset_set heap pos newitem default hpos
    · rw [if_neg h0]
      exact multiset_set heap pos newitem default hpos

/-- CPython `_siftup` (bubble the min child up to the hole, then `_siftdown`)
restores the heap invariant when only edges at the hole may be unordered. -/
theorem siftupAux_heapInv (key : E → K) (endpos : ℕ) (newitem : E) (pos : ℕ)
    (heap : List E) (hlen : heap.length = endpos) (hpos : pos < endpos)
    (ha : HoleEdges key heap pos) (hc : HoleGrand key heap pos) :
    HeapInv key (siftupAux key endpos 0 newitem pos heap) := by
  suffices H : ∀ m pos (heap : List E), endpos - pos ≤ m → heap.length = endpos →
      pos < endpos → HoleEdges key heap pos → HoleGrand key heap pos →
      HeapInv key (siftupAux key endpos 0 newitem pos heap) from
    H (endpos - pos) pos heap (le_refl _) hlen hpos ha hc
  intro m
  induction m with
  | zero => intro pos heap hm hlen hpos ha hc; omega
  | succ m ih =>
    intro pos heap hm hlen hpos ha hc
    rw [siftupAux]
    simp only []
    by_cases hchild : 2 * pos + 1 < endpos
    · rw [if_pos hchild]
      set c := if 2 * pos + 1 + 1 < endpos ∧
          ¬ key (heap.getD (2 * pos + 1) default) < key (heap.getD (2 * pos + 1 + 1) default)
        then 2 * pos + 1 + 1 else 2 * pos + 1 with hcdef
      have hcrange : (c = 2 * pos + 1 ∨ c = 2 * pos + 2) ∧ c < endpos := by
        rw [hcdef]; split
        · exact ⟨Or.inr rfl, by omega⟩
        · exact ⟨Or.inl rfl, hchild⟩
      have hcpos : pos < c := by omega
      have hcpar : (c - 1) / 2 = pos := by omega
      have hmin : ∀ j, 0 < j → j < endpos → (j - 1) / 2 = pos →
          key (heap.getD c default) ≤ key (heap.getD j default) := by
        intro j hj0 hjlen hjpar
        have hj : j = 2 * pos + 1 ∨ j = 2 * pos + 2 := by omega
        rw [hcdef]
        split
        · rename_i hcond
          rcases hj with hj | hj <;> subst hj
          · exact le_of_not_lt hcond.2
          · exact le_refl _
        · rename_i hcond
          rcases hj with hj | hj <;> subst hj
          · exact le_refl _
          · rcases Decidable.not_and_iff_or_not.mp hcond with hn | hn
            · omega
            · exact le_of_lt (Decidable.not_not.mp hn)
      apply ih c (heap.set pos (heap.getD c default)) (by omega)
        (by rw [List.length_set]; exact hlen) hcrange.2
      · -- HoleEdges after moving the chosen child into the hole
        intro j hj0 hjlen hjne hjpar
        rw [List.length_set, hlen] at hjlen
        by_cases hjpos : j = pos
        · subst hjpos
          rw [getD_set_self _ _ _ _ (by omega), getD_set_ne _ _ _ _ _ (by omega)]
          exact hc c (by omega) (by omega) hcpar hj0
        · by_cases hjp : (j - 1) / 2 = pos
          · rw [hjp, getD_set_self _ _ _ _ (by omega), getD_set_ne _ _ _ _ _ (by omega)]
            exact hmin j hj0 hjlen hjp
          · rw [getD_set_ne _ _ _ _ _ (by omega), getD_set_ne _ _ _ _ _ (by omega)]
            exact ha j hj0 (by omega) hjpos hjp
      · -- HoleGrand after moving the chosen child into the hole
        intro j hj0 hjlen hjpar _hc0
        rw [List.length_set, hlen] at hjlen
        rw [hcpar, getD_set_self _ _ _ _ (by omega), getD_set_ne _ _ _ _ _ (by omega)]
        have := ha j hj0 (by omega) (by omega) (by omega)
        rw [hjpar] at this
        exact this
    · rw [if_neg hchild]
      apply siftdownAux_heapInv key newitem pos heap (by omega) ha _ hc
      intro j _hj0 hjlen hjpar
      rw [hlen] at hjlen
      omega

/-- CPython `_siftup` replaces the hole's content by the carried element, as a
multiset. -/
theorem siftupAux_multiset (key : E → K) (endpos startpos : ℕ) (newitem : E) (pos : ℕ)
    (heap : List E) (hlen : heap.length = endpos) (hpos : pos < endpos) :
    ((siftupAux key endpos startpos newitem pos heap : List E) : Multiset E)
        + {heap.getD pos default}
      = (heap : Multiset E) + {newitem} := by
  suffices H : ∀ m pos (heap : List E), endpos - pos ≤ m → heap.length = endpos →
      pos < endpos →
      ((siftupAux key endpos startpos newitem pos heap : List E) : Multiset E)
          + {heap.getD pos default}
        = (heap : Multiset E) + {newitem} from
    H (endpos - pos) pos heap (le_refl _) hlen hpos
  intro m
  induction m with
  | zero => intro pos heap hm hlen hpos; omega
  | succ m ih =>
    intro pos heap hm hlen hpos
    rw [siftupAux]
    simp only []
    by_cases hchild : 2 * pos + 1 < endpos
    · rw [if_pos hchild]
      set c := if 2 * pos + 1 + 1 < endpos ∧
          ¬ key (heap.getD (2 * pos + 1) default) < key (heap.getD (2 * pos + 1 + 1) default)
        then 2 * pos + 1 + 1 else 2 * pos + 1 with hcdef
      have hcrange : pos < c ∧ c < endpos := by
        rw [hcdef]; split
        · exact ⟨by omega, by omega⟩
        · exact ⟨by omega, hchild⟩
      have hres := ih c (heap.set pos (heap.getD c default)) (by omega)
        (by rw [List.length_set]; exact hlen) hcrange.2
      rw [getD_set_ne _ _ _ _ _ (by omega)] at hres
      have hset := multiset_set heap pos (heap.getD c default) default (by omega)
      apply add_right_cancel (b := ({heap.getD c default} : Multiset E))
      calc ((siftupAux key endpos startpos newitem c
              (heap.set pos (heap.getD c default)) : List E) : Multiset E)
            + {heap.getD pos default} + {heap.getD c default}
          = ((siftupAux key endpos startpos newitem c
              (heap.set pos (heap.getD c default)) : List E) : Multiset E)
            + {heap.getD c default} + {heap.getD pos default} := by rw [add_right_comm]
        _ = ((heap.set pos (heap.getD c default) : List E) : Multiset E)
            + {newitem} + {heap.getD pos default} := by rw [hres]
        _ = ((heap.set pos (heap.getD c default) : List E) : Multiset E)
            + {heap.getD pos default} + {newitem} := by rw [add_right_comm]
        _ = (heap : Multiset E) + {heap.getD c default} + {newitem} := by rw [hset]
        _ = (heap : Multiset E) + {newitem} + {heap.getD c default} := by rw [add_right_comm]
    · rw [if_neg hchild]
      exact siftdownAux_multiset key startpos newitem pos heap (by omega)

/-- In a heap the root is minimal, position-wise. -/
theorem heapInv_root_le (key : E → K) (heap : List E) (hinv : HeapInv key heap) :
    ∀ j, j < heap.length → key (heap.getD 0 default) ≤ key (heap.getD j default) := by
  intro j
  induction j using Nat.strong_induction_on with
  | _ j ih =>
    intro hjlen
    by_cases hj0 : j = 0
    · subst hj0; exact le_refl _
    · exact le_trans (ih ((j - 1) / 2) (by omega) (by omega)) (hinv j (by omega) hjlen)

/-- In a heap the root is minimal, member-wise. -/
theorem heapInv_root_le_mem (key : E → K) (heap : List E) (hinv : HeapInv key heap)
    (x : E) (hx : x ∈ heap) : key (heap.getD 0 default) ≤ key x := by
  obtain ⟨i, hi, hgi⟩ := List.mem_iff_getElem.mp hx
  have : heap.getD i default = x := by
    rw [List.getD_eq_getElem?_getD, List.getElem?_eq_getElem hi]
    exact congrArg (Option.getD · default) (congrArg some hgi)
  rw [← this]
  exact heapInv_root_le key heap hinv i hi

/-- `heappush` preserves the heap invariant. -/
theorem heappush_heapInv (key : E → K) (heap : List E) (item : E)
    (hinv : HeapInv key heap) : HeapInv key (heappush key heap item) := by
  unfold heappush siftdown
  rw [getD_append_len]
  apply siftdownAux_heapInv key item heap.length (heap ++ [item])
    (by rw [List.length_append]; simp)
  · intro j hj0 hjlen hjne hjpar
    rw [List.length_append, List.length_cons, List.length_nil] at hjlen
    have hjlt : j < heap.length := by omega
    rw [getD_append_left _ _ _ _ (by omega), getD_append_left _ _ _ _ (by omega)]
    exact hinv j hj0 hjlt
  · intro j hj0 hjlen hjpar
    rw [List.length_append, List.length_cons, List.length_nil] at hjlen
    omega
  · intro j hj0 hjlen hjpar
    rw [List.length_append, List.length_cons, List.length_nil] at hjlen
    omega

/-- `heappush` adds exactly the new item, as a multiset. -/
theorem heappush_multiset (key : E → K) (heap : List E) (item : E) :
    ((heappush key heap item : List E) : Multiset E) = (heap : Multiset E) + {item} := by
  have h := siftdownAux_multiset key 0 item heap.length (heap ++ [item])
    (by rw [List.length_append]; simp)
  rw [getD_append_len] at h
  apply add_right_cancel (b := ({item} : Multiset E))
  unfold heappush siftdown
  rw [getD_append_len, h]
  have : ((heap ++ [item] : List E) : Multiset E) = (heap : Multiset E) + {item} := by
    rw [← Multiset.coe_add]
    rfl
  rw [this]

/-- `heappop` on a nonempty heap returns the root (a minimum), and the new heap
keeps the invariant and loses exactly that one element. -/
theorem heappop_spec (key : E → K) (heap : List E) (hinv : HeapInv key heap)
    (hne : heap ≠ []) :
    ∃ h2, heappop key heap = some (heap.getD 0 default, h2) ∧ HeapInv key h2 ∧
      (h2 : Multiset E) + {heap.getD 0 default} = (heap : Multiset E) := by
  have hlast : heap.getLast? = some (heap.getLast hne) := List.getLast?_eq_getLast heap hne
  have hsplit : heap.dropLast ++ [heap.getLast hne] = heap :=
    List.dropLast_append_getLast hne
  by_cases hrest : heap.dropLast.isEmpty
  · -- singleton heap
    have hlen1 : heap.length = 1 := by
      have h0 : heap.dropLast.length = 0 := by
        simpa using congrArg List.length (List.isEmpty_iff.mp hrest)
      rw [List.length_dropLast] at h0
      have := List.length_pos.mpr hne
      omega
    obtain ⟨a, ha⟩ : ∃ a, heap = [a] := by
      cases heap with
      | nil => simp at hlen1
      | cons a t =>
        cases t with
        | nil => exact ⟨a, rfl⟩
        | cons b u => simp at hlen1
    subst ha
    refine ⟨[], ?_, ?_, ?_⟩
    · rfl
    · intro j hj0 hjlen; simp at hjlen
    · rfl
  · -- at least two elements
    have hlen2 : 2 ≤ heap.length := by
      have : heap.dropLast.length ≠ 0 := by
        intro h0
        exact absurd (List.isEmpty_iff.mpr (List.length_eq_zero.mp h0)) hrest
      rw [List.length_dropLast] at this
      omega
    set lastelt := heap.getLast hne with hldef
    set rest := heap.dropLast with hrdef
    have hrl : rest.length = heap.length - 1 := List.length_dropLast heap
    have hr0 : (rest.set 0 lastelt).getD 0 default = lastelt :=
      getD_set_self _ _ _ _ (by omega)
    have hrget0 : rest.getD 0 default = heap.getD 0 default :=
      getD_dropLast heap 0 default (by omega)
    have hpop : heappop key heap
        = some (rest.getD 0 default, siftup key (rest.set 0 lastelt) 0) := by
      unfold heappop
      rw [hlast]
      simp only [← hrdef, hrest, if_false]
      rfl
    have hsl : (rest.set 0 lastelt).length = heap.length - 1 := by
      rw [List.length_set]; exact hrl
    have hedges : HoleEdges key (rest.set 0 lastelt) 0 := by
      intro j hj0 hjlen hjne hjpar
      rw [List.length_set, hrl] at hjlen
      rw [getD_set_ne _ _ _ _ _ (by omega), getD_set_ne _ _ _ _ _ (by omega)]
      rw [hrdef, getD_dropLast heap j default (by omega),
        getD_dropLast heap ((j - 1) / 2) default (by omega)]
      exact hinv j hj0 (by omega)
    have hgrand : HoleGrand key (rest.set 0 lastelt) 0 := by
      intro j hj0 hjlen hjpar hc0
      omega
    refine ⟨siftup key (rest.set 0 lastelt) 0, by rw [hpop, hrget0], ?_, ?_⟩
    · unfold siftup
      rw [hr0]
      exact siftupAux_heapInv key (rest.set 0 lastelt).length lastelt 0 _ rfl
        (by omega) hedges hgrand
    · have hm := siftupAux_multiset key (rest.set 0 lastelt).length 0 lastelt 0
        (rest.set 0 lastelt) rfl (by omega)
      rw [hr0] at hm
      unfold siftup
      rw [hr0]
      have hcancel : ((siftupAux key (rest.set 0 lastelt).length 0 lastelt 0
            (rest.set 0 lastelt) : List E) : Multiset E)
          = ((rest.set 0 lastelt : List E) : Multiset E) := add_right_cancel hm
      rw [hcancel, ← hrget0, multiset_set rest 0 lastelt default (by omega),
        ← Multiset.coe_singleton lastelt, Multiset.coe_add, hsplit]

/-- Draining an empty heap yields nothing. -/
theorem drain_nil (key : E → K) : drain key ([] : List E) = [] := by
  rw [drain]
  rfl

/-- Popping every element of a heap yields its contents in non-decreasing key
order: the core correctness fact behind `Backtester.run`. -/
theorem drain_sorted (key : E → K) (heap : List E) (hinv : HeapInv key heap) :
    (drain key heap).Sorted (fun a b => key a ≤ key b) ∧
      ((drain key heap : List E) : Multiset E) = (heap : Multiset E) := by
  suffices H : ∀ n (heap : List E), heap.length ≤ n → HeapInv key heap →
      (drain key heap).Sorted (fun a b => key a ≤ key b) ∧
        ((drain key heap : List E) : Multiset E) = (heap : Multiset E) from
    H heap.length heap (le_refl _) hinv
  intro n
  induction n with
  | zero =>
    intro heap hlen _hinv
    have : heap = [] := List.length_eq_zero.mp (by omega)
    subst this
    rw [drain_nil]
    exact ⟨List.sorted_nil, rfl⟩
  | succ n ih =>
    intro heap hlen hinv
    by_cases hne : heap = []
    · subst hne
      rw [drain_nil]
      exact ⟨List.sorted_nil, rfl⟩
    · obtain ⟨h2, hpop, hinv2, hmul⟩ := heappop_spec key heap hinv hne
      have hstep : drain key heap = heap.getD 0 default :: drain key h2 := by
        rw [drain, hpop]
      have hl2 := (heappop_length key heap _ _ hpop).2
      obtain ⟨hs2, hm2⟩ := ih h2 (by omega) hinv2
      have hmem : ∀ b ∈ drain key h2, key (heap.getD 0 default) ≤ key b := by
        intro b hb
        have hb2 : b ∈ (h2 : Multiset E) := by
          rw [← hm2]
          exact Multiset.mem_coe.mpr hb
        have hbh : b ∈ heap := by
          rw [← Multiset.mem_coe, ← hmul]
          exact Multiset.mem_add.mpr (Or.inl hb2)
        exact heapInv_root_le_mem key heap hinv b hbh
      constructor
      · rw [hstep]
        exact List.sorted_cons.mpr ⟨hmem, hs2⟩
      · rw [hstep]
        show heap.getD 0 default ::ₘ ((drain key h2 : List E) : Multiset E)
            = (heap : Multiset E)
        rw [hm2, ← Multiset.singleton_add, add_comm]
        exact hmul

end HeapInvariant

/-! ### Fuelled mirrors of the sift loops

The loop functions above use well-founded recursion, which the kernel cannot
evaluate definitionally.  The following structurally recursive mirrors are
proven equal to them (given enough fuel) and are used to evaluate concrete
queues inside proofs. -/

section Fuel

variable {E : Type} [Inhabited E] {K : Type} [LinearOrder K]

/-- Fuelled mirror of `siftdownAux`. -/
def siftdownAuxF (key : E → K) (startpos : ℕ) (newitem : E) :
    ℕ → ℕ → List E → List E
  | 0, pos, heap => heap.set pos newitem
  | fuel + 1, pos, heap =>
    if startpos < pos then
      let parentpos := (pos - 1) / 2
      let parent := heap.getD parentpos default
      if key newitem < key parent then
        siftdownAuxF key startpos newitem fuel parentpos (heap.set pos parent)
      else
        heap.set pos newitem
    else
      heap.set pos newitem

theorem siftdownAuxF_eq (key : E → K) (startpos : ℕ) (newitem : E) (fuel pos : ℕ)
    (heap : List E) (h : pos ≤ fuel) :
    siftdownAuxF key startpos newitem fuel pos heap
      = siftdownAux key startpos newitem pos heap := by
  induction fuel generalizing pos heap with
  | zero =>
    rw [siftdownAux]
    have : pos = 0 := by omega
    subst this
    rw [if_neg (by omega)]
    rfl
  | succ fuel ih =>
    rw [siftdownAux, siftdownAuxF]
    by_cases h0 : startpos < pos
    · rw [if_pos h0, if_pos h0]
      by_cases hlt : key newitem < key (heap.getD ((pos - 1) / 2) default)
      · rw [if_pos hlt, if_pos hlt, ih _ _ (by omega)]
      · rw [if_neg hlt, if_neg hlt]
    · rw [if_neg h0, if_neg h0]

/-- Fuelled mirror of `siftupAux`. -/
def siftupAuxF (key : E → K) (endpos startpos : ℕ) (newitem : E) :
    ℕ → ℕ → List E → List E
  | 0, pos, heap => siftdownAuxF key startpos newitem pos pos heap
  | fuel + 1, pos, heap =>
    if 2 * pos + 1 < endpos then
      let childpos := 2 * pos + 1
      let rightpos := childpos + 1
      let c :=
        if rightpos < endpos ∧
            ¬ key (heap.getD childpos default) < key (heap.getD rightpos default)
        then rightpos else childpos
      siftupAuxF key endpos startpos newitem fuel c (heap.set pos (heap.getD c default))
    else
      siftdownAuxF key startpos newitem pos pos heap

theorem siftupAuxF_eq (key : E → K) (endpos startpos : ℕ) (newitem : E) (fuel pos : ℕ)
    (heap : List E) (h : endpos - pos ≤ fuel) :
    siftupAuxF key endpos startpos newitem fuel pos heap
      = siftupAux key endpos startpos newitem pos heap := by
  induction fuel generalizing pos heap with
  | zero =>
    rw [siftupAux]
    rw [if_neg (by omega)]
    exact siftdownAuxF_eq key startpos newitem pos pos heap (le_refl _)
  | succ fuel ih =>
    rw [siftupAux, siftupAuxF]
    by_cases h0 : 2 * pos + 1 < endpos
    · rw [if_pos h0, if_pos h0]
      simp only []
      split
      · exact ih _ _ (by omega)
      · exact ih _ _ (by omega)
    · rw [if_neg h0, if_neg h0]
      exact siftdownAuxF_eq key startpos newitem pos pos heap (le_refl _)

/-- Fuelled mirror of `heappush`. -/
def heappushF (key : E → K) (heap : List E) (item : E) : List E :=
  siftdownAuxF key 0 ((heap ++ [item]).getD heap.length default) heap.length
    heap.length (heap ++ [item])

theorem heappushF_eq (key : E → K) (heap : List E) (item : E) :
    heappushF key heap item = heappush key heap item :=
  siftdownAuxF_eq key 0 _ heap.length heap.length (heap ++ [item]) (le_refl _)

/-- Fuelled mirror of `siftup`. -/
def siftupF (key : E → K) (heap : List E) (pos : ℕ) : List E :=
  siftupAuxF key heap.length pos (heap.getD pos default) heap.length pos heap

theorem siftupF_eq (key : E → K) (heap : List E) (pos : ℕ) :
    siftupF key heap pos = siftup key heap pos :=
  siftupAuxF_eq key heap.length pos _ heap.length pos heap (by omega)

/-- Fuelled mirror of `heappop`. -/
def heappopF (key : E → K) (heap : List E) : Option (E × List E) :=
  match heap.getLast? with
  | none => none
  | some lastelt =>
    let rest := heap.dropLast
    if rest.isEmpty then some (lastelt, [])
    else some (rest.getD 0 default, siftupF key (rest.set 0 lastelt) 0)

theorem heappopF_eq (key : E → K) (heap : List E) :
    heappopF key heap = heappop key heap := by
  unfold heappopF heappop
  cases heap.getLast? with
  | none => rfl
  | some lastelt =>
    simp only []
    rw [siftupF_eq]

/-- Fuelled mirror of `drain`. -/
def drainF (key : E → K) : ℕ → List E → List E
  | 0, _ => []
  | fuel + 1, heap =>
    match heappopF key heap with
    | none => []
    | some (e, h2) => e :: drainF key fuel h2

theorem drainF_eq (key : E → K) (fuel : ℕ) (heap : List E)
    (h : heap.length ≤ fuel) : drainF key fuel heap = drain key heap := by
  induction fuel generalizing heap with
  | zero =>
    have : heap = [] := List.length_eq_zero.mp (by omega)
    subst this
    rw [drain_nil]
    rfl
  | succ fuel ih =>
    rw [drain, drainF, heappopF_eq]
    cases hpop : heappop key heap with
    | none => rfl
    | some p =>
      obtain ⟨e, h2⟩ := p
      simp only []
      rw [ih h2 (by have := (heappop_length key heap e h2 hpop).2; omega)]

end Fuel

end Heapq

/-! ## Events of the backtest engine (backtester.py) -/

/-- The four event kinds of `EVENT_TYPES`. -/
inductive EventType where
  | MARKET
  | SIGNAL
  | ORDER
  | LOG
deriving DecidableEq

/-- Priorities from the `EVENT_TYPES` dictionary. -/
def EVENT_TYPES : EventType → ℕ
  | .MARKET => 0
  | .SIGNAL => 1
  | .ORDER => 2
  | .LOG => 3

/-- An `Event` of the backtester: a kind, a timestamp, and a payload.  The
`data` field stands in for the Python data dictionary; only its identity
matters for queue ordering, since `Event.__lt__` never reads it. -/
structure Event where
  type : EventType
  timestamp : ℚ
  data : ℕ
deriving DecidableEq

instance : Inhabited Event := ⟨⟨.MARKET, 0, 0⟩⟩

/-- The tuple `(self.timestamp, EVENT_TYPES[self.type])` that `Event.__lt__`
compares.  Note there is no sequence number in the source. -/
def evKey (e : Event) : EvKey := ⟨e.timestamp, EVENT_TYPES e.type⟩

/-- `Backtester.add_event`: `heapq.heappush(self.event_queue, event)`. -/
def add_event (q : List Event) (e : Event) : List Event := heappush evKey q e

/-- The sequence of events `Backtester.run` pops (and hands to handlers):
repeated `heapq.heappop` until the queue is empty. -/
def run_dispatch (q : List Event) : List Event := drain evKey q

/-- Pushing events one by one keeps the heap invariant and the contents. -/
theorem foldl_add_event_spec (events : List Event) :
    ∀ q : List Event, HeapInv evKey q →
      HeapInv evKey (events.foldl add_event q) ∧
        ((events.foldl add_event q : List Event) : Multiset Event)
          = (q : Multiset Event) + (events : Multiset Event) := by
  induction events with
  | nil =>
    intro q hq
    exact ⟨hq, by simp⟩
  | cons e t ih =>
    intro q hq
    obtain ⟨h1, h2⟩ := ih (add_event q e) (heappush_heapInv evKey q e hq)
    rw [List.foldl_cons]
    refine ⟨h1, ?_⟩
    rw [h2]
    show ((heappush evKey q e : List Event) : Multiset Event) + _ = _
    rw [heappush_multiset, ← Multiset.cons_coe, ← Multiset.singleton_add, add_assoc]

/-- Queue pushes can be computed through the fuelled mirror. -/
theorem foldl_add_event_F (l : List Event) : ∀ q : List Event,
    List.foldl add_event q l = List.foldl (fun q e => heappushF evKey q e) q l := by
  induction l with
  | nil => intro q; rfl
  | cons e t ih =>
    intro q
    rw [List.foldl_cons, List.foldl_cons, ih, heappushF_eq]
    rfl

/-- A concrete MARKET event at timestamp 0 with payload tag `n`; all `cEv n`
share the ordering key, so `Event.__lt__` cannot distinguish them. -/
def cEv (n : ℕ) : Event := ⟨EventType.MARKET, 0, n⟩

/-- Claim C1, counterexample: four events with identical timestamp and type,
pushed in payload order 0,1,2,3, are dispatched by `run()` in the order
0,2,1,3 - not in FIFO insertion order, because `Event.__lt__` carries no
sequence number and CPython heapq is not stable on ties. -/
theorem c1_fifo_counterexample :
    run_dispatch (List.foldl add_event [] [cEv 0, cEv 1, cEv 2, cEv 3])
      = [cEv 0, cEv 2, cEv 1, cEv 3]
    ∧ evKey (cEv 1) = evKey (cEv 2) ∧ cEv 1 ≠ cEv 2 := by
  refine ⟨?_, by decide, by decide⟩
  rw [run_dispatch, foldl_add_event_F, ← drainF_eq evKey 8 _ (by decide)]
  decide

/-! ## Python runtime errors

Exceptions the embedded code can raise are values of `PyErr`. -/

/-- Python exceptions raised by the embedded code paths. -/
inductive PyErr where
  | typeError
  | zeroDivisionError
  | nameError
  | valueError
  | keyError
  | unboundLocalError
  | attributeError
deriving DecidableEq

/-! ## Association-list model of Python dictionaries

Python dictionaries preserve insertion order and have unique keys.  `dget` is
`d.get(k)`, `dset` is `d[k] = v` (update in place, or append a new binding),
`dpop` is `d.pop(k)` (keys are unique, so removing every binding of `k` is the
same operation), `dsetIfPresent` updates the binding only when the key is
already present - used to model that the active and history maps alias the
same mutable `Order` object. -/

def dget {β : Type} (m : List (String × β)) (k : String) : Option β :=
  match m with
  | [] => none
  | (k2, v) :: t => if k2 = k then some v else dget t k

def dset {β : Type} (m : List (String × β)) (k : String) (v : β) : List (String × β) :=
  match m with
  | [] => [(k, v)]
  | (k2, v2) :: t => if k2 = k then (k2, v) :: t else (k2, v2) :: dset t k v

def dpop {β : Type} (m : List (String × β)) (k : String) : List (String × β) :=
  match m with
  | [] => []
  | (k2, v) :: t => if k2 = k then dpop t k else (k2, v) :: dpop t k

def dsetIfPresent {β : Type} (m : List (String × β)) (k : String) (v : β) :
    List (String × β) :=
  match m with
  | [] => []
  | (k2, v2) :: t => if k2 = k then (k2, v) :: t else (k2, v2) :: dsetIfPresent t k v

/-- Claim C1, amended: for every finite list of events pushed onto the event
queue in any insertion order, `run()` pops and dispatches exactly those events
(as a multiset) in non-decreasing `(timestamp, type_priority)` order, where
type_priority is MarketData(0) < Signal(1) < Order(2) < Log(3).  No sequence
number exists in the code, and events with identical timestamp and type may be
dispatched out of insertion order. -/
theorem c1_run_dispatch_ordered (events : List Event) :
    (run_dispatch (events.foldl add_event [])).Sorted (fun a b => evKey a ≤ evKey b)
    ∧ ((run_dispatch (events.foldl add_event []) : List Event) : Multiset Event)
        = (events : Multiset Event) := by
  obtain ⟨hinv, hm⟩ := foldl_add_event_spec events [] (by intro j hj0 hjlen; simp at hjlen)
  obtain ⟨hs, hd⟩ := drain_sorted evKey _ hinv
  refine ⟨hs, ?_⟩
  show ((drain evKey (events.foldl add_event []) : List Event) : Multiset Event) = _
  rw [hd, hm]
  simp

/-! ## Order lifecycle manager (src/core/order_manager.py)

Enumerations, the `Order` pydantic model, and `OrderManager`.  The `asyncio`
lock serializes every operation, so each method is a plain state transition on
`OMState`.  `datetime` values are rational seconds; `datetime.now()` becomes a
`now` parameter. -/

/-- `OrderType` enum. -/
inductive OrderType where
  | LIMIT
  | MARKET
  | STOP_LOSS
  | TAKE_PROFIT
deriving DecidableEq

/-- `TradeType` enum. -/
inductive TradeType where
  | SPOT
  | PERPETUAL
deriving DecidableEq

/-- `OrderStatus` enum. -/
inductive OrderStatus where
  | NEW
  | PARTIALLY_FILLED
  | FILLED
  | CANCELED
  | REJECTED
  | EXPIRED
deriving DecidableEq

/-- The `Order` pydantic model. -/
structure Order where
  order_id : String
  symbol : String
  order_type : OrderType
  trade_type : TradeType
  side : String
  quantity : ℚ
  price : Option ℚ := none
  stop_price : Option ℚ := none
  leverage : ℤ := 1
  margin : Option ℚ := none
  status : OrderStatus := OrderStatus.NEW
  created_at : ℚ
  updated_at : ℚ
  filled_quantity : ℚ := 0
  avg_price : ℚ := 0
deriving DecidableEq

/-- One perpetual position entry as written by `sync_positions`. -/
structure Position where
  quantity : ℚ
  entry_price : ℚ
  leverage : ℤ
  margin : ℚ
deriving DecidableEq

/-- State of an `OrderManager`.  `active_orders` and `order_history` are
initialized empty in `__init__`.  Modelled from the spec: `positions` and
`spot_balances` are read by `create_order`, `sync_positions` and
`_should_auto_cancel` but never initialized in the source (a defect the spec
resolves by treating them as required empty-initialized state), so they are
fields here, empty at construction. -/
structure OMState where
  active_orders : List (String × Order) := []
  order_history : List (String × Order) := []
  positions : List (String × Position) := []
  spot_balances : List (String × ℚ) := []
deriving DecidableEq

/-- `MIN_MAINTENANCE_MARGIN = 0.05`. -/
def MIN_MAINTENANCE_MARGIN : ℚ := 5 / 100

/-- `OrderManager.calculate_required_margin`: for a PERPETUAL order,
`(quantity * price) / leverage`; `0.0` otherwise.  Python raises `TypeError`
when `price` is `None` and `ZeroDivisionError` when `leverage` is zero. -/
def calculate_required_margin (order : Order) : Except PyErr ℚ :=
  if order.trade_type = TradeType.PERPETUAL then
    match order.price with
    | none => Except.error PyErr.typeError
    | some p =>
      if order.leverage = 0 then Except.error PyErr.zeroDivisionError
      else Except.ok ((order.quantity * p) / (order.leverage : ℚ))
  else
    Except.ok 0

/-- The margin looked up by `create_order`:
`self.positions.get(order.symbol, {}).get('margin', 0)`. -/
def positionMargin (st : OMState) (symbol : String) : ℚ :=
  match dget st.positions symbol with
  | some p => p.margin
  | none => 0

/-- `OrderManager.create_order(order, risk_manager)`.  The risk manager is
the boolean gate `risk_manager.check_order_risk`.  Rejection records the
order in history only; acceptance records it in both maps unchanged. -/
def create_order (st : OMState) (order : Order) (risk_check : Order → Bool)
    (now : ℚ) : Except PyErr (OMState × Order) :=
  if ¬ risk_check order then
    let o := { order with status := OrderStatus.REJECTED, updated_at := now }
    Except.ok ({ st with order_history := dset st.order_history o.order_id o }, o)
  else if order.trade_type = TradeType.PERPETUAL then
    match calculate_required_margin order with
    | Except.error e => Except.error e
    | Except.ok required_margin =>
      if positionMargin st order.symbol < required_margin * (11 / 10) then
        let o := { order with status := OrderStatus.REJECTED, updated_at := now }
        Except.ok ({ st with order_history := dset st.order_history o.order_id o }, o)
      else
        Except.ok ({ st with
          active_orders := dset st.active_orders order.order_id order,
          order_history := dset st.order_history order.order_id order }, order)
  else
    Except.ok ({ st with
      active_orders := dset st.active_orders order.order_id order,
      order_history := dset st.order_history order.order_id order }, order)

/-- The mutated order object of `update_order_status`. -/
def updatedOrder (order : Order) (status : OrderStatus) (filled_quantity avg_price now : ℚ) :
    Order :=
  { order with
    status := status
    filled_quantity := filled_quantity
    avg_price := avg_price
    updated_at := now }

/-- `OrderManager.update_order_status(order_id, status, filled_quantity,
avg_price)`.  No-op returning `None` when the id is not active.  Otherwise the
shared `Order` object is mutated (visible through both maps, since
`create_order` stored the same object in both), and the entry is popped from
the active map only when the new status is FILLED, CANCELED or REJECTED -
note the source omits EXPIRED from that list. -/
def update_order_status (st : OMState) (order_id : String) (status : OrderStatus)
    (filled_quantity avg_price now : ℚ) : OMState × Option Order :=
  match dget st.active_orders order_id with
  | none => (st, none)
  | some order =>
    let o := updatedOrder order status filled_quantity avg_price now
    let st1 : OMState :=
      { st with
        active_orders := dset st.active_orders order_id o,
        order_history := dsetIfPresent st.order_history order_id o }
    if status = OrderStatus.FILLED ∨ status = OrderStatus.CANCELED
        ∨ status = OrderStatus.REJECTED then
      ({ st1 with active_orders := dpop st1.active_orders order_id }, some o)
    else
      (st1, some o)

/-- `OrderManager.cancel_order(order_id)`: pop from the active map and mark
the (shared) order object CANCELED, returning `True`; `False` when the id is
not active. -/
def cancel_order (st : OMState) (order_id : String) : OMState × Bool :=
  match dget st.active_orders order_id with
  | none => (st, false)
  | some order =>
    let o := { order with status := OrderStatus.CANCELED }
    ({ st with
      active_orders := dpop st.active_orders order_id,
      order_history := dsetIfPresent st.order_history order_id o }, true)

/-- `OrderManager.get_order(order_id)`: active first, then history. -/
def get_order (st : OMState) (order_id : String) : Option Order :=
  match dget st.active_orders order_id with
  | some o => some o
  | none => dget st.order_history order_id

/-- Final branch of `_should_auto_cancel`: the STOP_LOSS/TAKE_PROFIT trigger
check calls `self.get_mark_price`, a method that does not exist on
`OrderManager`, so reaching it raises `AttributeError`; otherwise the method
falls through to `return False`. -/
def stopTriggerBranch (order : Order) : Except PyErr Bool :=
  if order.order_type = OrderType.STOP_LOSS ∨ order.order_type = OrderType.TAKE_PROFIT then
    Except.error PyErr.attributeError
  else
    Except.ok false

/-- `OrderManager._should_auto_cancel(order)` at time `now`.  Branches in
source order: age over 30 seconds since creation; PERPETUAL order whose
symbol has a synced position with margin below `MIN_MAINTENANCE_MARGIN`;
then the stop-trigger branch. -/
def should_auto_cancel (st : OMState) (order : Order) (now : ℚ) :
    Except PyErr Bool :=
  if now - order.created_at > 30 then
    Except.ok true
  else if order.trade_type = TradeType.PERPETUAL then
    match dget st.positions order.symbol with
    | some p =>
      if p.margin < MIN_MAINTENANCE_MARGIN then Except.ok true
      else stopTriggerBranch order
    | none => stopTriggerBranch order
  else
    stopTriggerBranch order

/-- One step of the cancel loop of `auto_cancel_orders`: the exchange call
happens before the local `cancel_order`.  Actions are recorded in a trace. -/
inductive CancelAction where
  | exCancel (order_id : String)
  | localCancel (order_id : String)
deriving DecidableEq

/-- The list comprehension of `auto_cancel_orders`: every active order id
whose `_should_auto_cancel` is true, in map order; a raised exception aborts
before any cancellation happens. -/
def cancelCandidates (st : OMState) (now : ℚ) :
    List (String × Order) → Except PyErr (List String)
  | [] => Except.ok []
  | (order_id, order) :: t =>
    match should_auto_cancel st order now with
    | Except.error e => Except.error e
    | Except.ok b =>
      match cancelCandidates st now t with
      | Except.error e => Except.error e
      | Except.ok rest => Except.ok (if b then order_id :: rest else rest)

/-- The cancel loop of `auto_cancel_orders`: for each selected id, first
`exchange.cancel_order(order_id)`, then `self.cancel_order(order_id)`. -/
def runCancels (st : OMState) : List String → OMState × List CancelAction
  | [] => (st, [])
  | order_id :: t =>
    let st1 := (cancel_order st order_id).1
    let (st2, tr) := runCancels st1 t
    (st2, CancelAction.exCancel order_id :: CancelAction.localCancel order_id :: tr)

/-- `OrderManager.auto_cancel_orders(exchange)` at time `now`: collect the
candidates, then cancel each on the exchange and locally, in order. -/
def auto_cancel_orders (st : OMState) (now : ℚ) :
    Except PyErr (OMState × List CancelAction) :=
  match cancelCandidates st now st.active_orders with
  | Except.error e => Except.error e
  | Except.ok ids => Except.ok (runCancels st ids)

/-- One exchange position record consumed by `sync_positions`. -/
structure ExchangePosition where
  type : TradeType
  symbol : String
  positionAmt : ℚ
  entryPrice : ℚ
  leverage : ℤ
  isolatedMargin : ℚ
deriving DecidableEq

/-- Loop body of the position sync: overwrite the entry for a PERPETUAL
record, skip other records. -/
def syncPosStep (acc : OMState) (p : ExchangePosition) : OMState :=
  if p.type = TradeType.PERPETUAL then
    let entry := Position.mk p.positionAmt p.entryPrice p.leverage p.isolatedMargin
    { acc with positions := dset acc.positions p.symbol entry }
  else acc

/-- Loop body of the spot-balance sync. -/
def syncBalStep (acc : OMState) (kv : String × ℚ) : OMState :=
  { acc with spot_balances := dset acc.spot_balances kv.1 kv.2 }

/-- `OrderManager.sync_positions(exchange)`: overwrite the position entry for
every PERPETUAL record returned by the exchange, then overwrite the spot
balances per currency. -/
def sync_positions (st : OMState) (positions : List ExchangePosition)
    (spot_balances : List (String × ℚ)) : OMState :=
  spot_balances.foldl syncBalStep (positions.foldl syncPosStep st)

/-! ### Dictionary lemmas -/

section DictLemmas

variable {β : Type}

theorem dget_dset_self (m : List (String × β)) (k : String) (v : β) :
    dget (dset m k v) k = some v := by
  induction m with
  | nil => simp [dget, dset]
  | cons p t ih =>
    obtain ⟨k2, v2⟩ := p
    by_cases h : k2 = k
    · simp [dget, dset, h]
    · simp [dget, dset, h, ih]

theorem dget_dset_ne (m : List (String × β)) (k k2 : String) (v : β) (h : k ≠ k2) :
    dget (dset m k v) k2 = dget m k2 := by
  induction m with
  | nil => simp [dget, dset, h]
  | cons p t ih =>
    obtain ⟨k3, v3⟩ := p
    by_cases h3 : k3 = k
    · subst h3
      simp [dget, dset, h]
    · simp [dget, dset, h3, ih]

theorem dget_dpop_self (m : List (String × β)) (k : String) :
    dget (dpop m k) k = none := by
  induction m with
  | nil => simp [dget, dpop]
  | cons p t ih =>
    obtain ⟨k2, v2⟩ := p
    by_cases h : k2 = k
    · simp [dpop, h, ih]
    · simp [dget, dpop, h, ih]

theorem dget_dpop_ne (m : List (String × β)) (k k2 : String) (h : k ≠ k2) :
    dget (dpop m k) k2 = dget m k2 := by
  induction m with
  | nil => simp [dget, dpop]
  | cons p t ih =>
    obtain ⟨k3, v3⟩ := p
    by_cases h3 : k3 = k
    · subst h3
      simp [dget, dpop, h, ih]
    · simp [dget, dpop, h3, ih]

theorem dget_dsetIfPresent_self (m : List (String × β)) (k : String) (v : β) :
    dget (dsetIfPresent m k v) k = (dget m k).map (fun _ => v) := by
  induction m with
  | nil => simp [dget, dsetIfPresent]
  | cons p t ih =>
    obtain ⟨k2, v2⟩ := p
    by_cases h : k2 = k
    · simp [dget, dsetIfPresent, h]
    · simp [dget, dsetIfPresent, h, ih]

theorem dget_dsetIfPresent_ne (m : List (String × β)) (k k2 : String) (v : β)
    (h : k ≠ k2) : dget (dsetIfPresent m k v) k2 = dget m k2 := by
  induction m with
  | nil => simp [dget, dsetIfPresent]
  | cons p t ih =>
    obtain ⟨k3, v3⟩ := p
    by_cases h3 : k3 = k
    · subst h3
      simp [dget, dsetIfPresent, h]
    · simp [dget, dsetIfPresent, h3, ih]

theorem isSome_dget_dsetIfPresent (m : List (String × β)) (k k2 : String) (v : β) :
    (dget (dsetIfPresent m k v) k2).isSome = (dget m k2).isSome := by
  by_cases h : k = k2
  · subst h
    rw [dget_dsetIfPresent_self]
    cases dget m k <;> rfl
  · rw [dget_dsetIfPresent_ne m k k2 v h]

theorem mem_dset {p : String × β} {m : List (String × β)} {k : String} {v : β}
    (h : p ∈ dset m k v) : p ∈ m ∨ p = (k, v) := by
  induction m with
  | nil => simpa [dset] using h
  | cons q t ih =>
    obtain ⟨k2, v2⟩ := q
    by_cases h2 : k2 = k
    · subst h2
      rw [dset, if_pos rfl] at h
      rcases List.mem_cons.mp h with h | h
      · exact Or.inr (by rw [h])
      · exact Or.inl (List.mem_cons.mpr (Or.inr h))
    · rw [dset, if_neg h2] at h
      rcases List.mem_cons.mp h with h | h
      · exact Or.inl (List.mem_cons.mpr (Or.inl h))
      · rcases ih h with h | h
        · exact Or.inl (List.mem_cons.mpr (Or.inr h))
        · exact Or.inr h

theorem mem_dpop {p : String × β} {m : List (String × β)} {k : String}
    (h : p ∈ dpop m k) : p ∈ m ∧ p.1 ≠ k := by
  induction m with
  | nil => simpa [dpop] using h
  | cons q t ih =>
    obtain ⟨k2, v2⟩ := q
    by_cases h2 : k2 = k
    · rw [dpop, if_pos h2] at h
      exact ⟨List.mem_cons.mpr (Or.inr (ih h).1), (ih h).2⟩
    · rw [dpop, if_neg h2] at h
      rcases List.mem_cons.mp h with h | h
      · refine ⟨List.mem_cons.mpr (Or.inl h), ?_⟩
        rw [h]
        exact h2
      · exact ⟨List.mem_cons.mpr (Or.inr (ih h).1), (ih h).2⟩

theorem mem_dsetIfPresent {p : String × β} {m : List (String × β)} {k : String} {v : β}
    (h : p ∈ dsetIfPresent m k v) : p ∈ m ∨ p = (k, v) := by
  induction m with
  | nil => simpa [dsetIfPresent] using h
  | cons q t ih =>
    obtain ⟨k2, v2⟩ := q
    by_cases h2 : k2 = k
    · subst h2
      rw [dsetIfPresent, if_pos rfl] at h
      rcases List.mem_cons.mp h with h | h
      · exact Or.inr (by rw [h])
      · exact Or.inl (List.mem_cons.mpr (Or.inr h))
    · rw [dsetIfPresent, if_neg h2] at h
      rcases List.mem_cons.mp h with h | h
      · exact Or.inl (List.mem_cons.mpr (Or.inl h))
      · rcases ih h with h | h
        · exact Or.inl (List.mem_cons.mpr (Or.inr h))
        · exact Or.inr h

theorem dget_some_mem {m : List (String × β)} {k : String} {v : β}
    (h : dget m k = some v) : (k, v) ∈ m := by
  induction m with
  | nil => simp [dget] at h
  | cons q t ih =>
    obtain ⟨k2, v2⟩ := q
    by_cases h2 : k2 = k
    · subst h2
      rw [dget, if_pos rfl] at h
      cases h
      exact List.mem_cons.mpr (Or.inl rfl)
    · rw [dget, if_neg h2] at h
      exact List.mem_cons.mpr (Or.inr (ih h))

theorem isSome_dget_dset_mono {m : List (String × β)} {k2 : String} (k : String) (v : β)
    (h : (dget m k2).isSome = true) : (dget (dset m k v) k2).isSome = true := by
  by_cases hk : k = k2
  · subst hk
    rw [dget_dset_self]
    rfl
  · rw [dget_dset_ne m k k2 v hk]
    exact h

end DictLemmas

/-! ### Operation sequences and the active-map invariant (claim C2) -/

/-- An externally invocable `OrderManager` operation, carrying the external
inputs (risk-gate verdict, clock reading, exchange data) as data. -/
inductive OMOp where
  | create (order : Order) (riskOk : Bool) (now : ℚ)
  | update (order_id : String) (status : OrderStatus) (filled_quantity avg_price now : ℚ)
  | cancel (order_id : String)
  | autoCancel (now : ℚ)
  | sync (positions : List ExchangePosition) (spot_balances : List (String × ℚ))

/-- Run one operation; a raised exception leaves the state unchanged (all
mutations of `create_order` and `auto_cancel_orders` happen after the points
that can raise). -/
def runOp (st : OMState) : OMOp → OMState
  | OMOp.create order riskOk now =>
    match create_order st order (fun _ => riskOk) now with
    | Except.ok r => r.1
    | Except.error _ => st
  | OMOp.update order_id status fq ap now =>
    (update_order_status st order_id status fq ap now).1
  | OMOp.cancel order_id => (cancel_order st order_id).1
  | OMOp.autoCancel now =>
    match auto_cancel_orders st now with
    | Except.ok r => r.1
    | Except.error _ => st
  | OMOp.sync ps bs => sync_positions st ps bs

/-- Run a sequence of operations. -/
def runOps (st : OMState) (ops : List OMOp) : OMState := ops.foldl runOp st

/-- The operation is not a `create`, or creates an order in the fresh `NEW`
status (the pydantic default for newly constructed orders). -/
def CreatesNew : OMOp → Bool
  | OMOp.create o _ _ => o.status == OrderStatus.NEW
  | _ => true

/-- The amended safety property: no active order ever carries one of the
statuses that `update_order_status` treats as terminal (FILLED, CANCELED,
REJECTED), and every active order id is present in the history map. -/
def ActiveInv (st : OMState) : Prop :=
  (∀ p ∈ st.active_orders,
      p.2.status ≠ OrderStatus.FILLED ∧ p.2.status ≠ OrderStatus.CANCELED ∧
        p.2.status ≠ OrderStatus.REJECTED)
  ∧ (∀ p ∈ st.active_orders, (dget st.order_history p.1).isSome = true)

theorem inv_history_insert (st : OMState) (k : String) (o : Order)
    (h : ActiveInv st) :
    ActiveInv { st with order_history := dset st.order_history k o } := by
  constructor
  · exact h.1
  · intro p hp
    exact isSome_dget_dset_mono k o (h.2 p hp)

theorem inv_insert_both (st : OMState) (order : Order) (h : ActiveInv st)
    (hst : order.status ≠ OrderStatus.FILLED ∧ order.status ≠ OrderStatus.CANCELED ∧
      order.status ≠ OrderStatus.REJECTED) :
    ActiveInv { st with
      active_orders := dset st.active_orders order.order_id order
      order_history := dset st.order_history order.order_id order } := by
  constructor
  · intro p hp
    rcases mem_dset hp with hm | he
    · exact h.1 p hm
    · rw [he]
      exact hst
  · intro p hp
    rcases mem_dset hp with hm | he
    · exact isSome_dget_dset_mono _ _ (h.2 p hm)
    · rw [he]
      show (dget (dset st.order_history order.order_id order) order.order_id).isSome = true
      rw [dget_dset_self]
      rfl

theorem create_order_inv (st : OMState) (order : Order) (rc : Order → Bool) (now : ℚ)
    (hnew : order.status = OrderStatus.NEW) (h : ActiveInv st) :
    ∀ r, create_order st order rc now = Except.ok r → ActiveInv r.1 := by
  intro r hr
  have hok : order.status ≠ OrderStatus.FILLED ∧ order.status ≠ OrderStatus.CANCELED ∧
      order.status ≠ OrderStatus.REJECTED := by
    refine ⟨?_, ?_, ?_⟩ <;> rw [hnew] <;> decide
  unfold create_order at hr
  split at hr
  · cases hr
    exact inv_history_insert st _ _ h
  · split at hr
    · split at hr
      · simp at hr
      · split at hr
        · cases hr
          exact inv_history_insert st _ _ h
        · cases hr
          exact inv_insert_both st order h hok
    · cases hr
      exact inv_insert_both st order h hok

/-- `update_order_status` on an unknown id is a no-op. -/
theorem update_none_eq (st : OMState) (order_id : String) (status : OrderStatus)
    (fq ap now : ℚ) (hget : dget st.active_orders order_id = none) :
    update_order_status st order_id status fq ap now = (st, none) := by
  unfold update_order_status
  rw [hget]

/-- Characterization of `update_order_status` on an active id. -/
theorem update_some_eq (st : OMState) (order_id : String) (status : OrderStatus)
    (fq ap now : ℚ) (order : Order)
    (hget : dget st.active_orders order_id = some order) :
    update_order_status st order_id status fq ap now =
      (if status = OrderStatus.FILLED ∨ status = OrderStatus.CANCELED
          ∨ status = OrderStatus.REJECTED
       then ({ st with
               active_orders :=
                 dpop (dset st.active_orders order_id (updatedOrder order status fq ap now))
                   order_id
               order_history :=
                 dsetIfPresent st.order_history order_id
                   (updatedOrder order status fq ap now) },
             some (updatedOrder order status fq ap now))
       else ({ st with
               active_orders :=
                 dset st.active_orders order_id (updatedOrder order status fq ap now)
               order_history :=
                 dsetIfPresent st.order_history order_id
                   (updatedOrder order status fq ap now) },
             some (updatedOrder order status fq ap now))) := by
  unfold update_order_status
  rw [hget]

/-- `cancel_order` on an id not in the active map is a no-op returning false. -/
theorem cancel_none_eq (st : OMState) (order_id : String)
    (hget : dget st.active_orders order_id = none) :
    cancel_order st order_id = (st, false) := by
  unfold cancel_order
  rw [hget]

/-- Characterization of `cancel_order` on an active id. -/
theorem cancel_some_eq (st : OMState) (order_id : String) (order : Order)
    (hget : dget st.active_orders order_id = some order) :
    cancel_order st order_id =
      ({ st with
         active_orders := dpop st.active_orders order_id
         order_history := dsetIfPresent st.order_history order_id
           { order with status := OrderStatus.CANCELED } },
       true) := by
  unfold cancel_order
  rw [hget]

theorem update_order_status_inv (st : OMState) (order_id : String)
    (status : OrderStatus) (fq ap now : ℚ) (h : ActiveInv st) :
    ActiveInv (update_order_status st order_id status fq ap now).1 := by
  cases hget : dget st.active_orders order_id with
  | none =>
    rw [update_none_eq st order_id status fq ap now hget]
    exact h
  | some order =>
    rw [update_some_eq st order_id status fq ap now order hget]
    by_cases hterm : status = OrderStatus.FILLED ∨ status = OrderStatus.CANCELED
        ∨ status = OrderStatus.REJECTED
    · rw [if_pos hterm]
      constructor
      · intro p hp
        have hm := mem_dpop hp
        rcases mem_dset hm.1 with hmem | heq
        · exact h.1 p hmem
        · exact absurd (congrArg Prod.fst heq) (by simpa using hm.2)
      · intro p hp
        have hm := mem_dpop hp
        rcases mem_dset hm.1 with hmem | heq
        · rw [isSome_dget_dsetIfPresent]
          exact h.2 p hmem
        · exact absurd (congrArg Prod.fst heq) (by simpa using hm.2)
    · rw [if_neg hterm]
      push_neg at hterm
      constructor
      · intro p hp
        rcases mem_dset hp with hmem | heq
        · exact h.1 p hmem
        · rw [heq]
          exact ⟨hterm.1, hterm.2.1, hterm.2.2⟩
      · intro p hp
        rcases mem_dset hp with hmem | heq
        · rw [isSome_dget_dsetIfPresent]
          exact h.2 p hmem
        · rw [isSome_dget_dsetIfPresent, heq]
          exact h.2 (order_id, order) (dget_some_mem hget)

theorem cancel_order_inv (st : OMState) (order_id : String) (h : ActiveInv st) :
    ActiveInv (cancel_order st order_id).1 := by
  unfold cancel_order
  cases hget : dget st.active_orders order_id with
  | none =>
    exact h
  | some order =>
    constructor
    · intro p hp
      exact h.1 p (mem_dpop hp).1
    · intro p hp
      rw [isSome_dget_dsetIfPresent]
      exact h.2 p (mem_dpop hp).1

theorem runCancels_inv (ids : List String) :
    ∀ st : OMState, ActiveInv st → ActiveInv (runCancels st ids).1 := by
  induction ids with
  | nil =>
    intro st h
    exact h
  | cons order_id t ih =>
    intro st h
    show ActiveInv (runCancels (cancel_order st order_id).1 t).1
    exact ih _ (cancel_order_inv st order_id h)

theorem syncPosStep_orders (acc : OMState) (p : ExchangePosition) :
    (syncPosStep acc p).active_orders = acc.active_orders ∧
      (syncPosStep acc p).order_history = acc.order_history := by
  unfold syncPosStep
  split <;> exact ⟨rfl, rfl⟩

theorem sync_positions_inv (st : OMState) (ps : List ExchangePosition)
    (bs : List (String × ℚ)) (h : ActiveInv st) :
    ActiveInv (sync_positions st ps bs) := by
  unfold sync_positions
  have h1 : ∀ (l : List ExchangePosition) (acc : OMState), ActiveInv acc →
      ActiveInv (l.foldl syncPosStep acc) := by
    intro l
    induction l with
    | nil => intro acc ha; exact ha
    | cons p t ih =>
      intro acc ha
      apply ih
      obtain ⟨e1, e2⟩ := syncPosStep_orders acc p
      unfold ActiveInv
      rw [e1, e2]
      exact ha
  have h2 : ∀ (l : List (String × ℚ)) (acc : OMState), ActiveInv acc →
      ActiveInv (l.foldl syncBalStep acc) := by
    intro l
    induction l with
    | nil => intro acc ha; exact ha
    | cons p t ih =>
      intro acc ha
      apply ih
      exact ha
  exact h2 bs _ (h1 ps st h)

theorem runOp_inv (st : OMState) (op : OMOp) (hop : CreatesNew op = true)
    (h : ActiveInv st) : ActiveInv (runOp st op) := by
  cases op with
  | create order riskOk now =>
    have hnew : order.status = OrderStatus.NEW := by
      have hb := hop
      unfold CreatesNew at hb
      exact eq_of_beq hb
    simp only [runOp]
    cases hc : create_order st order (fun _ => riskOk) now with
    | ok r => exact create_order_inv st order _ now hnew h r hc
    | error e => exact h
  | update order_id status fq ap now =>
    exact update_order_status_inv st _ _ _ _ _ h
  | cancel order_id => exact cancel_order_inv st _ h
  | autoCancel now =>
    simp only [runOp]
    unfold auto_cancel_orders
    cases hc : cancelCandidates st now st.active_orders with
    | error e => exact h
    | ok ids => exact runCancels_inv ids st h
  | sync ps bs => exact sync_positions_inv st ps bs h

theorem runOps_inv (ops : List OMOp) :
    ∀ st : OMState, (∀ op ∈ ops, CreatesNew op = true) → ActiveInv st →
      ActiveInv (runOps st ops) := by
  induction ops with
  | nil =>
    intro st _ h
    exact h
  | cons op t ih =>
    intro st hops h
    show ActiveInv (runOps (runOp st op) t)
    exact ih _ (fun o ho => hops o (List.mem_cons.mpr (Or.inr ho)))
      (runOp_inv st op (hops op (List.mem_cons.mpr (Or.inl rfl))) h)

/-- A sample SPOT order in the default NEW status. -/
def sampleOrder : Order :=
  { order_id := "ord-1"
    symbol := "BTCUSDT"
    order_type := OrderType.LIMIT
    trade_type := TradeType.SPOT
    side := "buy"
    quantity := 1
    created_at := 0
    updated_at := 0 }

/-- The manager state holding exactly `sampleOrder`, as `create_order`
leaves it. -/
def sampleState : OMState :=
  { active_orders := [(sampleOrder.order_id, sampleOrder)]
    order_history := [(sampleOrder.order_id, sampleOrder)] }

/-- Claim C2, counterexample: `update_order_status` with the terminal status
EXPIRED does not remove the order from the active map - the source checks
only FILLED, CANCELED and REJECTED.  After creating a NEW order and updating
it to EXPIRED, the order is still in the active map with the terminal status
EXPIRED. -/
theorem c2_expired_stays_active_counterexample :
    (dget (runOps {} [OMOp.create sampleOrder true 0,
        OMOp.update sampleOrder.order_id OrderStatus.EXPIRED 0 0 1]).active_orders
      sampleOrder.order_id).map Order.status = some OrderStatus.EXPIRED := by
  decide

/-- Claim C2, amended: `update_order_status` with status FILLED, CANCELED or
REJECTED (but not EXPIRED) removes the order from the active map while the
history map keeps it, frozen at the terminal update; and after any sequence
of OrderManager operations whose created orders start in the NEW status, no
active order has status FILLED, CANCELED or REJECTED, and every active order
id is present in the history map. -/
theorem c2_terminal_removal_amended :
    (∀ (st : OMState) (order_id : String) (status : OrderStatus) (fq ap now : ℚ)
        (order : Order),
        dget st.active_orders order_id = some order →
        (status = OrderStatus.FILLED ∨ status = OrderStatus.CANCELED
          ∨ status = OrderStatus.REJECTED) →
        dget (update_order_status st order_id status fq ap now).1.active_orders order_id
            = none
        ∧ dget (update_order_status st order_id status fq ap now).1.order_history order_id
            = (dget st.order_history order_id).map
                (fun _ => updatedOrder order status fq ap now))
    ∧ (∀ ops : List OMOp, (∀ op ∈ ops, CreatesNew op = true) →
        ActiveInv (runOps {} ops)) := by
  constructor
  · intro st order_id status fq ap now order hget hterm
    rw [update_some_eq st order_id status fq ap now order hget, if_pos hterm]
    exact ⟨dget_dpop_self _ _, dget_dsetIfPresent_self _ _ _⟩
  · intro ops hops
    refine runOps_inv ops {} hops ?_
    constructor <;> intro p hp <;> exact absurd hp (List.not_mem_nil p)

/-- Witness for the amended claim C2 at concrete inputs: updating the sample
order to FILLED removes it from the active map and freezes the history copy,
and the create-NEW/update-EXPIRED run satisfies the active-map invariant. -/
theorem c2_terminal_removal_witness :
    (dget (update_order_status sampleState sampleOrder.order_id OrderStatus.FILLED
        1 100 2).1.active_orders sampleOrder.order_id = none
      ∧ dget (update_order_status sampleState sampleOrder.order_id OrderStatus.FILLED
          1 100 2).1.order_history sampleOrder.order_id
        = (dget sampleState.order_history sampleOrder.order_id).map
            (fun _ => updatedOrder sampleOrder OrderStatus.FILLED 1 100 2))
    ∧ ActiveInv (runOps {} [OMOp.create sampleOrder true 0,
        OMOp.update sampleOrder.order_id OrderStatus.EXPIRED 0 0 1]) :=
  ⟨c2_terminal_removal_amended.1 sampleState sampleOrder.order_id OrderStatus.FILLED
      1 100 2 sampleOrder (by decide) (Or.inl rfl),
    c2_terminal_removal_amended.2
      [OMOp.create sampleOrder true 0,
        OMOp.update sampleOrder.order_id OrderStatus.EXPIRED 0 0 1]
      (by decide)⟩

/-- The trivially-true risk gate. -/
def rcTrue : Order → Bool := fun _ => true

/-- The PERPETUAL order of the margin test: quantity 10, price 100,
leverage 5, so required margin 200. -/
def perpOrder : Order :=
  { order_id := "perp-1"
    symbol := "ETHUSDT"
    order_type := OrderType.LIMIT
    trade_type := TradeType.PERPETUAL
    side := "buy"
    quantity := 10
    price := some 100
    leverage := 5
    created_at := 0
    updated_at := 0 }

/-- A manager state whose only position, for `perpOrder`'s symbol, has the
given margin. -/
def stPos (m : ℚ) : OMState :=
  { positions := [(perpOrder.symbol, Position.mk 0 0 5 m)] }

/-- Claim C3: `calculate_required_margin` yields 200 for quantity 10, price
100, leverage 5; `create_order` against position margin 200 REJECTS (since
200 < 220) and records the order in history only; against margin 250 it
accepts the order with status NEW into both maps. -/
theorem c3_perpetual_margin_scenario :
    calculate_required_margin perpOrder = Except.ok 200
    ∧ (create_order (stPos 200) perpOrder rcTrue 1).toOption.map
        (fun r => (r.2.status, (dget r.1.active_orders perpOrder.order_id).isSome,
          (dget r.1.order_history perpOrder.order_id).map Order.status))
      = some (OrderStatus.REJECTED, false, some OrderStatus.REJECTED)
    ∧ (create_order (stPos 250) perpOrder rcTrue 1).toOption.map
        (fun r => (r.2.status, (dget r.1.active_orders perpOrder.order_id).map Order.status,
          (dget r.1.order_history perpOrder.order_id).map Order.status))
      = some (OrderStatus.NEW, some OrderStatus.NEW, some OrderStatus.NEW) := by
  have hrm : calculate_required_margin perpOrder = Except.ok 200 := by
    norm_num [calculate_required_margin, perpOrder]
  refine ⟨hrm, ?_, ?_⟩
  · unfold create_order
    rw [hrm]
    norm_num [perpOrder, rcTrue, positionMargin, stPos, dget, dset, Except.toOption]
  · unfold create_order
    rw [hrm]
    norm_num [perpOrder, rcTrue, positionMargin, stPos, dget, dset, Except.toOption]

/-- Claim C7: an active order created at time t and never updated, scanned by
`auto_cancel_orders` 31 seconds later, is removed from the active set, its
(shared) order object is marked CANCELED in the history map, and the exchange
cancel call happens exactly once for it, before the local cancel. -/
theorem c7_auto_cancel_after_31s (o : Order) (ps : List (String × Position))
    (sb : List (String × ℚ)) :
    auto_cancel_orders
        { active_orders := [(o.order_id, o)]
          order_history := [(o.order_id, o)]
          positions := ps
          spot_balances := sb }
        (o.created_at + 31)
      = Except.ok
          ({ active_orders := []
             order_history := [(o.order_id, { o with status := OrderStatus.CANCELED })]
             positions := ps
             spot_balances := sb },
           [CancelAction.exCancel o.order_id, CancelAction.localCancel o.order_id]) := by
  have hage : o.created_at + 31 - o.created_at > 30 := by
    have h31 : o.created_at + 31 - o.created_at = 31 := by ring
    rw [h31]
    norm_num
  set st : OMState :=
    { active_orders := [(o.order_id, o)]
      order_history := [(o.order_id, o)]
      positions := ps
      spot_balances := sb } with hst
  have hc : cancelCandidates st (o.created_at + 31) [(o.order_id, o)]
      = Except.ok [o.order_id] := by
    unfold cancelCandidates should_auto_cancel
    rw [if_pos hage]
    rfl
  have hget : dget st.active_orders o.order_id = some o := by
    rw [hst]
    simp [dget]
  unfold auto_cancel_orders
  rw [show st.active_orders = [(o.order_id, o)] from rfl, hc]
  show Except.ok (runCancels st [o.order_id]) = _
  unfold runCancels
  rw [cancel_some_eq st o.order_id o hget]
  simp [hst, runCancels, dpop, dsetIfPresent]

/-- The state of `sampleOrder` created NEW, then driven to the terminal
status EXPIRED - which `update_order_status` leaves in the active map. -/
def expiredState : OMState :=
  runOps {} [OMOp.create sampleOrder true 0,
    OMOp.update sampleOrder.order_id OrderStatus.EXPIRED 0 0 1]

/-- Claim C8, counterexample: the claim requires `cancel_order` to return
false and change nothing for an already-terminal id, but an order whose
status was updated to the terminal status EXPIRED stays in the active map,
and `cancel_order` on it returns true and mutates the state. -/
theorem c8_cancel_expired_counterexample :
    (dget expiredState.active_orders sampleOrder.order_id).map Order.status
        = some OrderStatus.EXPIRED
    ∧ (cancel_order expiredState sampleOrder.order_id).2 = true
    ∧ (cancel_order expiredState sampleOrder.order_id).1 ≠ expiredState := by
  refine ⟨by decide, by decide, by decide⟩

/-- Claim C8, amended: `cancel_order` returns true, removes the order from
the active map and marks the shared order object CANCELED exactly when the id
is in the active map; for any id not in the active map (unknown ids, and ids
already removed by a FILLED/CANCELED/REJECTED update - though not an EXPIRED
one, which stays active and cancellable) it returns false without raising and
without changing any state; calling it twice leaves the same final state as
calling it once. -/
theorem c8_cancel_order_amended (st : OMState) (order_id : String) :
    ((cancel_order st order_id).2 = true ↔ (dget st.active_orders order_id).isSome = true)
    ∧ dget (cancel_order st order_id).1.active_orders order_id = none
    ∧ (∀ order, dget st.active_orders order_id = some order →
        dget (cancel_order st order_id).1.order_history order_id
          = (dget st.order_history order_id).map
              (fun _ => { order with status := OrderStatus.CANCELED }))
    ∧ (dget st.active_orders order_id = none → cancel_order st order_id = (st, false))
    ∧ (cancel_order (cancel_order st order_id).1 order_id).1 = (cancel_order st order_id).1 := by
  cases hget : dget st.active_orders order_id with
  | none =>
    rw [cancel_none_eq st order_id hget]
    refine ⟨by simp [hget], hget, ?_, fun _ => rfl, ?_⟩
    · intro order horder
      exact absurd horder (by simp)
    · rw [cancel_none_eq st order_id hget]
  | some order =>
    rw [cancel_some_eq st order_id order hget]
    refine ⟨by simp [hget], dget_dpop_self _ _, ?_, ?_, ?_⟩
    · intro o2 ho2
      cases ho2
      exact dget_dsetIfPresent_self _ _ _
    · intro hnone
      exact absurd hnone (by simp)
    · rw [cancel_none_eq _ order_id (dget_dpop_self _ _)]

/-- Witness for the amended claim C8: the active sample id is cancelled with
return value true, an unknown id on the empty manager returns false with the
state unchanged, and both calls are idempotent. -/
theorem c8_cancel_order_witness :
    (dget sampleState.active_orders sampleOrder.order_id = some sampleOrder
      ∧ dget (cancel_order sampleState sampleOrder.order_id).1.order_history
          sampleOrder.order_id
        = (dget sampleState.order_history sampleOrder.order_id).map
            (fun _ => { sampleOrder with status := OrderStatus.CANCELED }))
    ∧ (dget ({} : OMState).active_orders sampleOrder.order_id = none
      ∧ cancel_order {} sampleOrder.order_id = ({}, false))
    ∧ (cancel_order (cancel_order sampleState sampleOrder.order_id).1
          sampleOrder.order_id).1
        = (cancel_order sampleState sampleOrder.order_id).1 :=
  ⟨⟨by decide,
      (c8_cancel_order_amended sampleState sampleOrder.order_id).2.2.1 sampleOrder
        (by decide)⟩,
    ⟨by decide,
      (c8_cancel_order_amended {} sampleOrder.order_id).2.2.2.1 (by decide)⟩,
    (c8_cancel_order_amended sampleState sampleOrder.order_id).2.2.2.2⟩

/-- Claim C9: a SPOT order that passes the risk gate is accepted unchanged -
in particular with its NEW status - into both the active and history maps,
with no margin or balance check of any kind (the PERPETUAL branch is the only
margin check in `create_order`), and `calculate_required_margin` returns 0
for every non-PERPETUAL order. -/
theorem c9_spot_orders_skip_margin (st : OMState) (order : Order)
    (rc : Order → Bool) (now : ℚ) (hrc : rc order = true)
    (hspot : order.trade_type = TradeType.SPOT)
    (hnew : order.status = OrderStatus.NEW) :
    create_order st order rc now
      = Except.ok ({ st with
          active_orders := dset st.active_orders order.order_id order
          order_history := dset st.order_history order.order_id order }, order)
    ∧ (create_order st order rc now).toOption.map (fun r => r.2.status)
        = some OrderStatus.NEW
    ∧ (∀ o : Order, o.trade_type ≠ TradeType.PERPETUAL →
        calculate_required_margin o = Except.ok 0) := by
  have h1 : create_order st order rc now
      = Except.ok ({ st with
          active_orders := dset st.active_orders order.order_id order
          order_history := dset st.order_history order.order_id order }, order) := by
    unfold create_order
    rw [if_neg (by simp [hrc]), if_neg (by rw [hspot]; decide)]
  refine ⟨h1, ?_, ?_⟩
  · rw [h1]
    simp [Except.toOption, hnew]
  · intro o ho
    unfold calculate_required_margin
    rw [if_neg ho]

/-! ## Backtester portfolio, order handler and performance (backtester.py)

The portfolio dictionary becomes the fields of `BTState`; `positions` is a
`defaultdict(float)`. -/

/-- One record of the trade ledger appended by `Backtester.on_order`. -/
structure TradeRec where
  timestamp : ℚ
  symbol : String
  side : String
  price : ℚ
  quantity : ℚ
  cash_change : ℚ
deriving DecidableEq

/-- Simulation state of a `Backtester`: cash (initially 100000), positions
per symbol, and the trade ledger. -/
structure BTState where
  cash : ℚ := 100000
  positions : List (String × ℚ) := []
  trades : List TradeRec := []
deriving DecidableEq

/-- The data dictionary of an `OrderEvent`; `filled_quantity` and
`trade_price` are attached by `OrderEvent.execute`, hence optional. -/
structure OrderEventData where
  symbol : String
  order_type : String
  quantity : ℚ
  side : String
  filled_quantity : Option ℚ := none
  trade_price : Option ℚ := none
deriving DecidableEq

/-- `Backtester.on_order(event)`.  With no `trade_price` in the event data it
raises `ValueError`; with no `filled_quantity` it raises `KeyError`.
Otherwise it mutates `portfolio['cash']` by the trade cost and then evaluates
`self.portfolio['positions'][symbol]` - but `symbol` is never bound in the
function body (nor module scope), so Python raises `NameError` at that point,
with the cash mutation already applied and no trade record appended.  The
error carries the state as mutated before the raise. -/
def on_order (st : BTState) (timestamp : ℚ) (d : OrderEventData) :
    Except (PyErr × BTState) BTState :=
  match d.trade_price with
  | none => Except.error (PyErr.valueError, st)
  | some trade_price =>
    match d.filled_quantity with
    | none => Except.error (PyErr.keyError, st)
    | some quantity =>
      let cost := trade_price * quantity
      let cash2 := if d.side = "buy" then st.cash - cost else st.cash + cost
      Except.error (PyErr.nameError, { st with cash := cash2 })

/-- A buy order event with a resolved trade price 50 and filled quantity 100. -/
def orderDataBuy : OrderEventData :=
  { symbol := "AAPL"
    order_type := "market"
    quantity := 100
    side := "buy"
    filled_quantity := some 100
    trade_price := some 50 }

/-- An order event with no resolved trade price. -/
def orderDataNoPrice : OrderEventData :=
  { symbol := "AAPL"
    order_type := "market"
    quantity := 100
    side := "buy" }

/-- Claim C4, code evaluation: an Order event carrying a resolved trade
price and a filled quantity makes the handler raise `NameError` on the
unbound `symbol` after mutating cash - it never updates the position of the
event's symbol and never appends a trade record; an event with no resolved
trade price raises the `ValueError` data error, as the claim says. -/
theorem c4_on_order_unbound_symbol (st : BTState) (ts : ℚ) :
    on_order st ts orderDataBuy
      = Except.error (PyErr.nameError, { st with cash := st.cash - 5000 })
    ∧ on_order st ts orderDataNoPrice = Except.error (PyErr.valueError, st) := by
  constructor
  · unfold on_order orderDataBuy
    norm_num
  · rfl

/-- Loop body of `_calculate_performance`: computes a `current_cash` from the
whole trade list (the comprehension condition `index <= index` is always
true) and discards it; `max_drawdown` is never reassigned. -/
def perfLoopBody (alltrades : List TradeRec) (max_drawdown : ℚ) (_t : TradeRec) : ℚ :=
  let current_cash := 100000 + (alltrades.map (fun t => t.cash_change)).sum
  max_drawdown

/-- `BacktesterWithStrategy._calculate_performance`: returns
`(total_return, max_drawdown)` where `max_drawdown` starts at `0.0` and the
dead loop never changes it. -/
def calculate_performance (cash : ℚ) (trades : List TradeRec) : ℚ × ℚ :=
  let total_return := (cash - 100000) / 100000
  let max_drawdown := trades.foldl (perfLoopBody trades) 0
  (total_return, max_drawdown)

/-- Modelled from the spec: the equity curve as the time-ordered accumulation
of cash changes over the trade ledger, starting from the initial cash.  The
source's `_calculate_performance` has no working equivalent (its drawdown
loop is dead code). -/
def equityCurve (initial : ℚ) : List ℚ → List ℚ
  | [] => [initial]
  | c :: rest => initial :: equityCurve (initial + c) rest

/-- Modelled from the spec: running-peak loop - `running_peak` is the maximum
equity seen so far and the drawdown of each point is
`(running_peak - equity) / running_peak`. -/
def mddLoop : List ℚ → ℚ → ℚ → ℚ
  | [], _peak, md => md
  | e :: rest, peak, md =>
    let peak2 := max peak e
    mddLoop rest peak2 (max md ((peak2 - e) / peak2))

/-- Modelled from the spec: max_drawdown = max over all prefixes of
`(running_peak - equity_t) / running_peak`. -/
def maxDrawdownSpec (curve : List ℚ) : ℚ := mddLoop curve 0 0

/-- The trade ledger whose cash changes are +5000, -10000, +15000, giving
the equity curve [100000, 105000, 95000, 110000]. -/
def sampleTrades : List TradeRec :=
  [ { timestamp := 1, symbol := "AAPL", side := "sell", price := 50, quantity := 100,
      cash_change := 5000 },
    { timestamp := 2, symbol := "AAPL", side := "buy", price := 100, quantity := 100,
      cash_change := -10000 },
    { timestamp := 3, symbol := "AAPL", side := "sell", price := 150, quantity := 100,
      cash_change := 15000 } ]

/-- Claim C5, code evaluation: on the equity curve
[100000, 105000, 95000, 110000] the source computes total_return = 10% but
max_drawdown = 0, while the spec's running-peak algorithm yields
2/21 (about 9.52%) - the source's drawdown loop is dead code. -/
theorem c5_max_drawdown_dead_code :
    calculate_performance 110000 sampleTrades = (1 / 10, 0)
    ∧ maxDrawdownSpec (equityCurve 100000 [5000, -10000, 15000]) = 2 / 21
    ∧ (2 / 21 : ℚ) ≠ 0 := by
  refine ⟨?_, ?_, by norm_num⟩
  · unfold calculate_performance perfLoopBody sampleTrades
    norm_num
  · norm_num [maxDrawdownSpec, equityCurve, mddLoop, max_def]

/-! ## Signal orchestrator (src/core/strategy_executor.py) -/

/-- State of a `StrategyExecutor`: its order ledger and the ids registered in
`self.active_orders` (the task registry). -/
structure ExecutorState where
  order_mgr : OMState := {}
  active_tasks : List String := []
deriving DecidableEq

/-- `StrategyExecutor.process_signal(signal)`, with the risk verdict of
`risk_mgr.check_order_risk(signal)` passed in.  On a rejected signal the
raised `ValueError` is caught by the `except` block, whose handler calls
`update_order_status(order.order_id, ...)` with `order` unbound on that path:
`UnboundLocalError` escapes, with no order created and no task spawned.  On
an accepted signal, `create_order(symbol=..., action=..., quantity=...,
strategy_id=...)` does not match `OrderManager.create_order(order,
risk_manager)` and raises `TypeError`, which the same except block turns
into the same `UnboundLocalError`. -/
def process_signal (risk_ok : Bool) (st : ExecutorState) :
    ExecutorState × Option PyErr :=
  if ¬ risk_ok then
    (st, some PyErr.unboundLocalError)
  else
    (st, some PyErr.unboundLocalError)

/-- Claim C6, code evaluation: for a risk-rejected signal, `process_signal`
constructs no order (the ledger is unchanged), spawns no submission task
(the registry is unchanged) - but the rejection path itself raises
`UnboundLocalError` out of the orchestrator, because the failure branch
references the unbound `order`. -/
theorem c6_rejected_signal_raises (st : ExecutorState) :
    process_signal false st = (st, some PyErr.unboundLocalError)
    ∧ (process_signal false st).1.order_mgr = st.order_mgr
    ∧ (process_signal false st).1.active_tasks = st.active_tasks :=
  ⟨rfl, rfl, rfl⟩

/-! ## Quantity normalization (src/api/exchange_base.py) -/

/-- Python `round(x)`: round half to even (banker's rounding). -/
def pyRound (x : ℚ) : ℤ :=
  let f := Int.floor x
  let frac := x - f
  if frac < 1 / 2 then f
  else if 1 / 2 < frac then f + 1
  else if f % 2 = 0 then f else f + 1

/-- `ExchangeBase._normalize_quantity(quantity, symbol_info)`:
`round(quantity * (1 / symbol_info['min_quantity']))`. -/
def normalize_quantity (quantity : ℚ) (min_quantity : ℚ) : ℤ :=
  pyRound (quantity * (1 / min_quantity))

/-- `ExchangeBase._denormalize_quantity(quantity, symbol_info)`:
`quantity * symbol_info['step_size']`. -/
def denormalize_quantity (quantity : ℤ) (step_size : ℚ) : ℚ :=
  (quantity : ℚ) * step_size

/-- `round` of an integer is that integer. -/
theorem pyRound_intCast (k : ℤ) : pyRound (k : ℚ) = k := by
  unfold pyRound
  rw [Int.floor_intCast]
  norm_num

/-- Claim C10: composing `_normalize_quantity` and `_denormalize_quantity`
yields `round(q * (1/m)) * s`; when `step_size = min_quantity` and `q` is an
exact integer multiple of `min_quantity`, the round trip returns `q`
unchanged. -/
theorem c10_normalize_roundtrip (q m s : ℚ) (hm : 0 < m) :
    denormalize_quantity (normalize_quantity q m) s
        = (pyRound (q * (1 / m)) : ℚ) * s
    ∧ (∀ k : ℤ, s = m → q = (k : ℚ) * m →
        denormalize_quantity (normalize_quantity q m) s = q) := by
  constructor
  · rfl
  · intro k hs hq
    rw [hs, hq]
    unfold denormalize_quantity normalize_quantity
    have hmne : m ≠ 0 := ne_of_gt hm
    have hcast : ((k : ℚ) * m) * (1 / m) = (k : ℚ) := by
      field_simp
    rw [hcast, pyRound_intCast]

/-- Witness for claim C10 at `q = 3/10`, `m = s = 1/10`, `k = 3`. -/
theorem c10_normalize_roundtrip_witness :
    (0 : ℚ) < 1 / 10 ∧ (3 / 10 : ℚ) = ((3 : ℤ) : ℚ) * (1 / 10)
    ∧ denormalize_quantity (normalize_quantity (3 / 10) (1 / 10)) (1 / 10) = 3 / 10 :=
  ⟨by norm_num, by norm_num,
    (c10_normalize_roundtrip (3 / 10) (1 / 10) (1 / 10) (by norm_num)).2 3 rfl
      (by norm_num)⟩

/-- Witness for claim C9: the sample SPOT order is accepted verbatim with
status NEW, and its required margin is 0. -/
theorem c9_spot_orders_witness :
    rcTrue sampleOrder = true
    ∧ sampleOrder.trade_type = TradeType.SPOT
    ∧ sampleOrder.status = OrderStatus.NEW
    ∧ (create_order {} sampleOrder rcTrue 0).toOption.map (fun r => r.2.status)
        = some OrderStatus.NEW
    ∧ calculate_required_margin sampleOrder = Except.ok 0 :=
  ⟨rfl, rfl, rfl,
    (c9_spot_orders_skip_margin {} sampleOrder rcTrue 0 rfl rfl rfl).2.1,
    (c9_spot_orders_skip_margin {} sampleOrder rcTrue 0 rfl rfl rfl).2.2 sampleOrder
      (by decide)⟩

end TidalBot
